import Mathlib

/-!
Verification development for the proxy-model.py repository.

The definitions below are a shallow embedding, translated from the Python
sources, of:
  * the Chain-instruction builder (`proxy/common_neon/neon_instruction.py`),
  * the indexer start-slot computation (`proxy/indexer/indexer_base.py`),
  * the RPC worker address/tag handling and `eth_getTransactionCount`
    (`proxy/neon_rpc_api_model/neon_rpc_api_worker.py`),
  * the strategy-ladder executor (`proxy/mempool/neon_tx_sender.py`).

Machine bytes are modelled as `Nat` lists (each element `< 256` where it
matters); Python exceptions are modelled with `Option` / `Except`.
-/

set_option maxRecDepth 20000

namespace Spec2Proof

/-! ## Byte-level utilities (Python `int.from_bytes` / `int.to_bytes` / `bytes.fromhex`) -/

/-- Little-endian interpretation of a byte list: Python `int.from_bytes(b, 'little')`. -/
def fromBytesLE : List Nat → Nat
  | [] => 0
  | b :: rest => b + 256 * fromBytesLE rest

/-- The `n` little-endian base-256 digits of `x` (the payload of a successful
Python `x.to_bytes(n, 'little')`). -/
def toBytesLEcore (x : Nat) : Nat → List Nat
  | 0 => []
  | n + 1 => (x % 256) :: toBytesLEcore (x / 256) n

/-- Python `x.to_bytes(n, 'little')` on a non-negative `x`; `none` models the
`OverflowError` raised when `x` does not fit in `n` bytes. -/
def pyToBytesLE (x n : Nat) : Option (List Nat) :=
  if x < 256 ^ n then some (toBytesLEcore x n) else none

/-- Value of one hexadecimal digit character, if any (working on the ASCII
code: 48–57 are the digits, 97–102 lower-case `a`–`f`, 65–70 upper-case
`A`–`F`). -/
def hexDigitVal (c : Char) : Option Nat :=
  let n := c.toNat
  if 48 ≤ n ∧ n ≤ 57 then some (n - 48)
  else if 97 ≤ n ∧ n ≤ 102 then some (n - 87)
  else if 65 ≤ n ∧ n ≤ 70 then some (n - 55)
  else none

/-- Python `bytes.fromhex` on a character list: pairs of hex digits, with
space characters permitted between pairs and at either end; `none` models the
`ValueError` on any other input (odd digit count, non-hex characters, or a
space splitting a pair). -/
def pyBytesFromHexList : List Char → Option (List Nat)
  | [] => some []
  | c :: rest =>
    if c = ' ' then pyBytesFromHexList rest
    else match rest with
      | [] => none
      | c2 :: rest2 => do
          let hi ← hexDigitVal c
          let lo ← hexDigitVal c2
          let tl ← pyBytesFromHexList rest2
          pure ((16 * hi + lo) :: tl)

/-- Python `bytes.fromhex` on a string. -/
def pyFromHex (s : String) : Option (List Nat) :=
  pyBytesFromHexList s.toList

/-- Lower-case hexadecimal digit character for a value `< 16` (ASCII codes
48–57 and 97–102). -/
def hexDigitChar (n : Nat) : Char :=
  Char.ofNat (if n < 10 then 48 + n else 87 + n)

/-- Lower-case hex rendering of a byte list (two digits per byte), as Python
`bytes.hex()`. -/
def bytesToHexChars : List Nat → List Char
  | [] => []
  | b :: rest => hexDigitChar (b / 16 % 16) :: hexDigitChar (b % 16) :: bytesToHexChars rest

/-- A `0x`-prefixed lower-case hex string for a byte list. -/
def hexStrOfBytes (bs : List Nat) : String :=
  String.mk ('0' :: 'x' :: bytesToHexChars bs)

/-- ASCII bytes of a string literal, as a Python `b'...'` literal. -/
def asciiBytes (s : String) : List Nat :=
  s.toList.map Char.toNat

/-! ## Chain-instruction builder (`proxy/common_neon/neon_instruction.py`) -/

/-- Solana public keys are opaque to the byte-layout claims; the embedding
models them as `Nat`. -/
abbrev SolPubKey := Nat

/-- Placeholder for the opaque system-program id constant; no claim depends on
its value. -/
def SYS_PROGRAM_ID : SolPubKey := 0

/-- Account meta of a Solana instruction. -/
structure SolAccountMeta where
  pubkey : SolPubKey
  is_signer : Bool
  is_writable : Bool
deriving DecidableEq, Repr

/-- A Solana transaction instruction: program id, account list, data bytes. -/
structure SolTxIx where
  program_id : SolPubKey
  accounts : List SolAccountMeta
  data : List Nat
deriving DecidableEq, Repr

/-- Source `EvmIxCode` (IntEnum) from `neon_instruction.py`. -/
inductive EvmIxCode where
  | Unknown
  | CollectTreasure
  | TxExecFromData
  | TxExecFromAccount
  | TxStepFromData
  | TxStepFromAccount
  | TxStepFromAccountNoChainId
  | CancelWithHash
  | HolderCreate
  | HolderDelete
  | HolderWrite
  | DepositV03
  | CreateAccountV03
deriving DecidableEq, Repr

/-- Numeric values of `EvmIxCode` (`Unknown = -1`, hence `Int`). -/
def EvmIxCode.value : EvmIxCode → Int
  | .Unknown => -1
  | .CollectTreasure => 0x1e
  | .TxExecFromData => 0x1f
  | .TxExecFromAccount => 0x2a
  | .TxStepFromData => 0x20
  | .TxStepFromAccount => 0x21
  | .TxStepFromAccountNoChainId => 0x22
  | .CancelWithHash => 0x23
  | .HolderCreate => 0x24
  | .HolderDelete => 0x25
  | .HolderWrite => 0x26
  | .DepositV03 => 0x27
  | .CreateAccountV03 => 0x28

/-- Source `EvmIxCode.<c>.value.to_bytes(1, byteorder='little')`; every real
opcode value is in `[0, 256)` so the conversion never overflows. -/
def ixCodeByte (c : EvmIxCode) : List Nat :=
  [c.value.toNat]

/-- The mutable state of `NeonIxBuilder` after its `init_*` calls; fields keep
the source names (leading underscores dropped). -/
structure NeonIxBuilder where
  evm_program_id : SolPubKey
  operator_account : SolPubKey
  operator_neon_address : SolPubKey
  neon_account_list : List SolAccountMeta
  msg : List Nat
  holder_msg : List Nat
  neon_tx_sig : List Nat
  treasury_pool_index_buf : List Nat
  treasury_pool_address : SolPubKey
  holder : SolPubKey
deriving DecidableEq, Repr

/-- Source `NeonIxBuilder.init_neon_tx_sig`.  `SolPubKey.find_program_address`
is the Solana SDK program-address derivation (SHA-256 based), external to this
repository; the embedding abstracts it as the argument `fpa`.
`treasuryPoolMax` stands for `ElfParams().treasury_pool_max`.  `none` models
the exceptions Python would raise (`ValueError` from `bytes.fromhex`,
`ZeroDivisionError` from `% 0`). -/
def initNeonTxSig (fpa : List (List Nat) → SolPubKey → SolPubKey)
    (treasuryPoolMax : Nat) (b : NeonIxBuilder) (neonTxSigHex : String) :
    Option NeonIxBuilder := do
  let sig ← pyBytesFromHexList (neonTxSigHex.toList.drop 2)
  if treasuryPoolMax = 0 then
    none
  else
    let treasuryPoolIndex := fromBytesLE (sig.take 4) % treasuryPoolMax
    let buf ← pyToBytesLE treasuryPoolIndex 4
    some { b with
             neon_tx_sig := sig
             treasury_pool_index_buf := buf
             treasury_pool_address := fpa [asciiBytes "treasury_pool", buf] b.evm_program_id }

/-- Source `NeonIxBuilder.init_neon_tx`: stores the RLP encoding of the signed
transaction (`rlp.encode`, external to this repository, abstracted as the
argument `rlpEncodedTx`) in `_msg` / `_holder_msg`, then delegates to
`init_neon_tx_sig`. -/
def initNeonTx (fpa : List (List Nat) → SolPubKey → SolPubKey)
    (treasuryPoolMax : Nat) (b : NeonIxBuilder)
    (rlpEncodedTx : List Nat) (hexTxSig : String) : Option NeonIxBuilder :=
  initNeonTxSig fpa treasuryPoolMax
    { b with msg := rlpEncodedTx, holder_msg := rlpEncodedTx } hexTxSig

/-- Source `NeonIxBuilder.make_write_ix`. -/
def makeWriteIx (b : NeonIxBuilder) (offset : Nat) (data : List Nat) :
    Option SolTxIx := do
  let offsetBytes ← pyToBytesLE offset 8
  pure { program_id := b.evm_program_id
         data := ixCodeByte .HolderWrite ++ b.neon_tx_sig ++ offsetBytes ++ data
         accounts := [
           { pubkey := b.holder, is_signer := false, is_writable := true },
           { pubkey := b.operator_account, is_signer := true, is_writable := false }] }

/-- Source `NeonIxBuilder._make_holder_ix`. -/
def makeHolderIx (b : NeonIxBuilder) (ixData : List Nat) : SolTxIx :=
  { program_id := b.evm_program_id
    data := ixData
    accounts := [
      { pubkey := b.holder, is_signer := false, is_writable := true },
      { pubkey := b.operator_account, is_signer := true, is_writable := true },
      { pubkey := b.treasury_pool_address, is_signer := false, is_writable := true },
      { pubkey := b.operator_neon_address, is_signer := false, is_writable := true },
      { pubkey := SYS_PROGRAM_ID, is_signer := false, is_writable := false },
      { pubkey := b.evm_program_id, is_signer := false, is_writable := false }]
      ++ b.neon_account_list }

/-- Source `NeonIxBuilder._make_tx_step_ix`. -/
def makeTxStepIx (b : NeonIxBuilder) (ixIdByte : List Nat)
    (neonStepCnt index : Nat) (data : Option (List Nat)) : Option SolTxIx := do
  let stepBytes ← pyToBytesLE neonStepCnt 4
  let indexBytes ← pyToBytesLE index 4
  let ixData := ixIdByte ++ b.treasury_pool_index_buf ++ stepBytes ++ indexBytes
  let ixData := match data with
    | some d => ixData ++ d
    | none => ixData
  pure (makeHolderIx b ixData)

/-- Source `NeonIxBuilder.make_tx_step_from_data_ix`. -/
def makeTxStepFromDataIx (b : NeonIxBuilder) (stepCnt index : Nat) : Option SolTxIx :=
  makeTxStepIx b (ixCodeByte .TxStepFromData) stepCnt index (some b.msg)

/-- Source `NeonIxBuilder.make_tx_step_from_account_ix`. -/
def makeTxStepFromAccountIx (b : NeonIxBuilder) (stepCnt index : Nat) : Option SolTxIx :=
  makeTxStepIx b (ixCodeByte .TxStepFromAccount) stepCnt index none

/-- Source `NeonIxBuilder.make_tx_step_from_account_no_chainid_ix`. -/
def makeTxStepFromAccountNoChainIdIx (b : NeonIxBuilder) (stepCnt index : Nat) :
    Option SolTxIx :=
  makeTxStepIx b (ixCodeByte .TxStepFromAccountNoChainId) stepCnt index none

/-! Spec-side formulas (written from the specification text, for refinement
comparisons). -/

/-- Spec formula: `treasury_pool_index = u32_le(tx_sig[0..4]) mod treasury_pool_max`. -/
def spec_treasury_pool_index (txSig : List Nat) (treasuryPoolMax : Nat) : Nat :=
  fromBytesLE (txSig.take 4) % treasuryPoolMax

/-- Spec formula: a `u32` rendered as 4 little-endian bytes. -/
def spec_u32_le (x : Nat) : List Nat :=
  toBytesLEcore x 4

/-- Spec formula: a `u64` rendered as 8 little-endian bytes. -/
def spec_u64_le (x : Nat) : List Nat :=
  toBytesLEcore x 8

/-! ## Indexer start slot (`proxy/indexer/indexer_base.py`) -/

/-- Value of a non-empty all-decimal-digit character list; `none` otherwise. -/
def decDigitsVal (cs : List Char) : Option Nat :=
  if cs = [] then none
  else cs.foldl
    (fun acc c => do
      let a ← acc
      if '0' ≤ c ∧ c ≤ '9' then some (10 * a + (c.toNat - '0'.toNat)) else none)
    (some 0)

/-- Python `int(s)` on a decimal string: optional surrounding spaces, an
optional sign, then decimal digits; `none` models the `ValueError` on any
other input.  (Python additionally accepts underscore digit separators,
non-space whitespace and Unicode digits; those inputs are not modelled.) -/
def pyParseIntDec (s : String) : Option Int :=
  let cs := ((s.toList.dropWhile (· = ' ')).reverse.dropWhile (· = ' ')).reverse
  match cs with
  | '-' :: rest => (decDigitsVal rest).map (fun n => -(n : Int))
  | '+' :: rest => (decDigitsVal rest).map (fun n => (n : Int))
  | _ => (decDigitsVal cs).map (fun n => (n : Int))

/-- Source `IndexerBase._get_start_slot`.  `startSlotCfg` is the
`START_SLOT` config string, `lastKnownSlot` the last parsed slot handed to
`__init__`, and `latestSlot` the finalized slot returned by
`solana.get_block_slot(SolCommit.Finalized)`.  The source's
`0 if not isinstance(last_known_slot, int)` guard is dropped: the embedding
takes the last known slot as an integer directly. -/
def getStartSlot (startSlotCfg : String) (lastKnownSlot latestSlot : Int) : Int :=
  let startIntSlot : Int :=
    if ¬ (startSlotCfg = "CONTINUE" ∨ startSlotCfg = "LATEST") then
      match pyParseIntDec startSlotCfg with
      | some n => min n latestSlot
      | none => 0
    else 0
  if startSlotCfg = "CONTINUE" ∧ lastKnownSlot > 0 then
    lastKnownSlot
  else if startSlotCfg = "CONTINUE" ∨ startSlotCfg = "LATEST" then
    -- `CONTINUE` with no previously parsed slot re-assigns `start_slot = 'LATEST'`
    -- and falls into the `LATEST` branch of the source.
    latestSlot
  else if startIntSlot < lastKnownSlot then
    lastKnownSlot
  else
    startIntSlot

/-- Source `IndexerBase.__init__`: the final start slot is the maximum of
`_get_start_slot(last_slot)` and `solana.get_first_available_block()`. -/
def indexerStartSlot (startSlotCfg : String) (lastKnownSlot latestSlot firstSlot : Int) : Int :=
  max (getStartSlot startSlotCfg lastKnownSlot latestSlot) firstSlot

/-! ## Keccak-256

A computable model of the Keccak-256 hash, needed only to embed the external
`eth_utils.to_checksum_address` (EIP-55) call made by
`NeonRpcApiWorker._normalize_address`.  Lanes are `Nat` values reduced
modulo `2^64`. -/

/-- Rotate a 64-bit lane left by `n` (`0 ≤ n < 64`). -/
def rotl64 (x n : Nat) : Nat :=
  ((x <<< n) ||| (x >>> (64 - n))) % 2 ^ 64

/-- Lane read with default 0 (all state lists have length 25). -/
def lane (st : List Nat) (i : Nat) : Nat :=
  st.getD i 0

/-- Keccak rotation offsets, flat-indexed by `x + 5 * y` (listed one plane
row at a time). -/
def keccakRotOffsets : List Nat :=
  [0, 1, 62, 28, 27] ++ [36, 44, 6, 55, 20] ++ [3, 10, 43, 25, 39]
    ++ [41, 45, 15, 21, 8] ++ [18, 2, 61, 56, 14]

/-- The 24 Keccak round constants (decimal rendering of the standard
values). -/
def keccakRC : List Nat :=
  [1, 32898, 9223372036854808714,
   9223372039002292224, 32907, 2147483649,
   9223372039002292353, 9223372036854808585, 138,
   136, 2147516425, 2147483658,
   2147516555, 9223372036854775947, 9223372036854808713,
   9223372036854808579, 9223372036854808578, 9223372036854775936,
   32778, 9223372039002259466, 9223372039002292353,
   9223372036854808704, 2147483649, 9223372039002292232]

/-- Keccak θ step. -/
def keccakTheta (st : List Nat) : List Nat :=
  let c := (List.range 5).map (fun x =>
    lane st x ^^^ lane st (x + 5) ^^^ lane st (x + 10) ^^^ lane st (x + 15) ^^^ lane st (x + 20))
  let d := (List.range 5).map (fun x =>
    lane c ((x + 4) % 5) ^^^ rotl64 (lane c ((x + 1) % 5)) 1)
  (List.range 25).map (fun i => lane st i ^^^ lane d (i % 5))

/-- Keccak ρ and π steps combined: target lane `(x', y')` receives the rotated
source lane `(3 * (y' + 2 * x') % 5, x')`. -/
def keccakRhoPi (st : List Nat) : List Nat :=
  (List.range 25).map (fun t =>
    let xp := t % 5
    let yp := t / 5
    let src := (3 * (yp + 2 * xp)) % 5 + 5 * xp
    rotl64 (lane st src) (lane keccakRotOffsets src))

/-- Keccak χ step (complement as xor with the 64-bit all-ones mask). -/
def keccakChi (st : List Nat) : List Nat :=
  (List.range 25).map (fun i =>
    let x := i % 5
    let y := i / 5
    lane st i ^^^ (((lane st ((x + 1) % 5 + 5 * y)) ^^^ (2 ^ 64 - 1)) &&& lane st ((x + 2) % 5 + 5 * y)))

/-- One Keccak-f round (θ, ρ+π, χ, ι). -/
def keccakRound (st : List Nat) (rc : Nat) : List Nat :=
  match keccakChi (keccakRhoPi (keccakTheta st)) with
  | [] => []
  | a0 :: rest => (a0 ^^^ rc) :: rest

/-- The Keccak-f[1600] permutation: 24 rounds. -/
def keccakF (st : List Nat) : List Nat :=
  keccakRC.foldl keccakRound st

/-- The 17 lanes of a 136-byte rate block, little-endian. -/
def bytesToLanes (block : List Nat) : List Nat :=
  (List.range 17).map (fun i => fromBytesLE ((block.drop (8 * i)).take 8))

/-- Xor a rate block into the first 17 lanes of the state. -/
def xorBlockIntoState (st block : List Nat) : List Nat :=
  let lanes := bytesToLanes block
  (List.range 25).map (fun i => if i < 17 then lane st i ^^^ lane lanes i else lane st i)

/-- Keccak padding (`0x01 … 0x80`, the pre-SHA-3 domain byte used by
Ethereum) to a multiple of the 136-byte rate. -/
def keccakPad (msg : List Nat) : List Nat :=
  let padLen := 136 - msg.length % 136
  if padLen = 1 then msg ++ [0x81]
  else msg ++ [0x01] ++ List.replicate (padLen - 2) 0 ++ [0x80]

/-- Absorb a padded message (length a multiple of 136) block by block; the
fuel argument (structural, so that the definition reduces in the kernel)
bounds the number of blocks and is passed as the block count. -/
def keccakAbsorbAux (st : List Nat) : Nat → List Nat → List Nat
  | 0, _ => st
  | _, [] => st
  | fuel + 1, b :: rest =>
      keccakAbsorbAux (keccakF (xorBlockIntoState st ((b :: rest).take 136)))
        fuel ((b :: rest).drop 136)

/-- Keccak-256 of a byte list: pad, absorb, then squeeze the first 32 bytes. -/
def keccak256 (msg : List Nat) : List Nat :=
  let padded := keccakPad msg
  let st := keccakAbsorbAux (List.replicate 25 0) (padded.length / 136 + 1) padded
  (List.range 32).map (fun i => (lane st (i / 8)) >>> (8 * (i % 8)) &&& 255)

/-! ## RPC worker address normalization and `eth_getTransactionCount`
(`proxy/neon_rpc_api_model/neon_rpc_api_worker.py`) -/

/-- ASCII whitespace characters stripped by Python `str.strip()` (the common
ones; exotic Unicode whitespace is not modelled). -/
def isPyWhitespaceChar (c : Char) : Bool :=
  c = ' ' || c = '\t' || c = '\n' || c = '\r'

/-- Python `str.strip()` on a character list. -/
def pyStrip (cs : List Char) : List Char :=
  ((cs.dropWhile isPyWhitespaceChar).reverse.dropWhile isPyWhitespaceChar).reverse

/-- Python `str.lower()` on one character, restricted to ASCII letters
(Unicode case mappings are not modelled). -/
def pyLowerChar (c : Char) : Char :=
  if 'A' ≤ c ∧ c ≤ 'Z' then Char.ofNat (c.toNat + 32) else c

/-- Lower-case a hexadecimal letter. -/
def lowerHexChar (c : Char) : Char :=
  if 'A' ≤ c ∧ c ≤ 'F' then Char.ofNat (c.toNat + 32) else c

/-- Upper-case a lower-case hexadecimal letter (digits unchanged). -/
def upperHexChar (c : Char) : Char :=
  if 'a' ≤ c ∧ c ≤ 'f' then Char.ofNat (c.toNat - 32) else c

/-- Nibble `i` (0-based, high nibble first per byte) of a byte list. -/
def nibbleAt (bs : List Nat) (i : Nat) : Nat :=
  if i % 2 = 0 then bs.getD (i / 2) 0 / 16 else bs.getD (i / 2) 0 % 16

/-- Model of `eth_utils.to_checksum_address` (an external library, not part of
this repository), per EIP-55: accept a hex address of exactly 20 bytes,
optionally `0x`-prefixed, in any letter case; return the `0x`-prefixed
checksummed rendering that upper-cases every hex letter whose corresponding
nibble of `keccak256` of the ASCII lower-case 40-digit hex string is at least
8.  `none` models the `ValueError` raised on any other input. -/
def toChecksumAddress (s : String) : Option String :=
  let cs := s.toList
  let cs := if cs.take 2 = ['0', 'x'] ∨ cs.take 2 = ['0', 'X'] then cs.drop 2 else cs
  if cs.length = 40 ∧ cs.all (fun c => (hexDigitVal c).isSome) then
    let lower := cs.map lowerHexChar
    let hash := keccak256 (lower.map Char.toNat)
    some (String.mk ('0' :: 'x' ::
      lower.mapIdx (fun i c => if 8 ≤ nibbleAt hash i then upperHexChar c else c)))
  else
    none

/-- RPC-level errors raised by parameter handling. -/
inductive RpcError where
  | invalidParam (message : String)
deriving DecidableEq, Repr

/-- Source `NeonRpcApiWorker._normalize_address`: strip, lower-case, require a
`0x` prefix and exactly 20 bytes of hex, then return
`eth_utils.to_checksum_address` of the hex digits; every failure inside the
`try` is turned into `InvalidParamError(f'bad {address_type}: {raw_address}')`. -/
def normalizeAddress (rawAddress : String) (addressType : String) : Except RpcError String :=
  let badMsg : RpcError := .invalidParam ("bad " ++ addressType ++ ": " ++ rawAddress)
  let address := (pyStrip rawAddress.toList).map pyLowerChar
  if address.take 2 = ['0', 'x'] then
    let addrHex := address.drop 2
    match pyBytesFromHexList addrHex with
    | some binAddress =>
      if binAddress.length = 20 then
        match toChecksumAddress (String.mk addrHex) with
        | some out => .ok out
        | none => .error badMsg
      else
        .error badMsg
    | none => .error badMsg
  else
    .error badMsg

/-- Solana commitment levels consulted by `eth_getTransactionCount`. -/
inductive SolCommit where
  | processed
  | confirmed
  | finalized
deriving DecidableEq, Repr

/-- A block tag as received by the RPC worker: an integer or a string.  (The
`dict` form, which consults the indexer database, is outside the claims'
scope and not modelled.) -/
inductive BlockTag where
  | int (n : Int)
  | str (s : String)
deriving DecidableEq, Repr

/-- Python `int(t, 16)` restricted to plain strings of hex digits (signs,
underscores and whitespace are not modelled). -/
def pyParseHex (cs : List Char) : Option Nat :=
  if cs = [] then none
  else cs.foldl
    (fun acc c => do
      let a ← acc
      let d ← hexDigitVal c
      pure (16 * a + d))
    (some 0)

/-- Source `NeonRpcApiWorker._validate_block_tag` restricted to non-`dict`
tags: an `int` tag always passes; a string tag passes when it is one of the
five named tags or `0x` followed by hex digits; anything else raises
`InvalidParam('invalid block tag …')`.  (The source's `tag.strip().lower()`
discards its result and has no effect.) -/
def validateBlockTag (tag : BlockTag) : Except RpcError Unit :=
  match tag with
  | .int _ => .ok ()
  | .str s =>
    if s = "latest" ∨ s = "pending" ∨ s = "earliest" ∨ s = "finalized" ∨ s = "safe" then
      .ok ()
    else if s.toList.take 2 = ['0', 'x'] ∧ (pyParseHex (s.toList.drop 2)).isSome then
      .ok ()
    else
      .error (.invalidParam ("invalid block tag " ++ s))

/-- Outcome of an external query: a value, or a raised Python exception (any
`Exception`, whose payload the claims do not inspect). -/
abbrev Query (α : Type) := Except Unit α

/-- The external queries `eth_getTransactionCount` performs: the two mempool
nonce queries and the on-Chain nonce per commitment (the account argument is
fixed for one invocation and therefore dropped). -/
structure TxCountEnv where
  getPendingTxNonce : Query (Option Nat)
  getMempoolTxNonce : Query (Option Nat)
  getStateTxCnt : SolCommit → Query Nat

/-- Lower-case hex digits of `n`, most significant first; the structural fuel
argument (instantiated with `n` itself) keeps the definition kernel-reducible. -/
def natHexCharsAux : Nat → Nat → List Char
  | 0, _ => []
  | fuel + 1, n =>
      if n = 0 then [] else natHexCharsAux fuel (n / 16) ++ [hexDigitChar (n % 16)]

/-- Python `hex(n)` for `n ≥ 0` (`hex(0) = '0x0'`). -/
def pyHex (n : Nat) : String :=
  if n = 0 then "0x0" else String.mk ('0' :: 'x' :: natHexCharsAux n n)

/-- The body of the `try` block of `eth_getTransactionCount`: pick the
commitment and the mempool nonce from the tag (`pending` → processed
commitment plus pending-tx nonce, `latest` → processed commitment plus
mempool-tx nonce, `finalized`/`safe` → finalized commitment, anything else →
confirmed commitment), then return `max(state_tx_cnt, pending_tx_nonce or 0)`. -/
def txCountBody (env : TxCountEnv) (tag : BlockTag) : Query Nat := do
  let (commitment, pendingTxNonce) ←
    if tag = .str "pending" then do
      let p ← env.getPendingTxNonce
      pure (SolCommit.processed, p)
    else if tag = .str "latest" then do
      let p ← env.getMempoolTxNonce
      pure (SolCommit.processed, p)
    else if tag = .str "finalized" ∨ tag = .str "safe" then
      pure (SolCommit.finalized, (none : Option Nat))
    else
      pure (SolCommit.confirmed, (none : Option Nat))
  let pendingTxNonce := pendingTxNonce.getD 0
  let txCnt ← env.getStateTxCnt commitment
  pure (max txCnt pendingTxNonce)

/-- Source `NeonRpcApiWorker.eth_getTransactionCount`: validate the tag,
normalize (and lower-case) the account, then run the `try` body; any raised
`Exception` inside the body is swallowed and `hex(0)` returned instead. -/
def ethGetTransactionCount (env : TxCountEnv) (account : String) (tag : BlockTag) :
    Except RpcError String := do
  let _ ← validateBlockTag tag
  let acct ← normalizeAddress account "address"
  let _acctLower := String.mk (acct.toList.map pyLowerChar)
  match txCountBody env tag with
  | .ok n => pure (pyHex n)
  | .error _ => pure (pyHex 0)

/-- A concrete builder state used by closed witness statements. -/
def builder0 : NeonIxBuilder :=
  { evm_program_id := 11
    operator_account := 12
    operator_neon_address := 13
    neon_account_list := []
    msg := [0xf8, 0x6b, 0x01]
    holder_msg := [0xf8, 0x6b, 0x01]
    neon_tx_sig := []
    treasury_pool_index_buf := []
    treasury_pool_address := 0
    holder := 14 }

/-- A concrete program-address derivation stand-in used by closed witness
statements. -/
def fpa0 (seeds : List (List Nat)) (programId : SolPubKey) : SolPubKey :=
  (seeds.map List.length).sum + 1000 * programId

/-- A concrete 32-byte transaction signature used by closed witness statements. -/
def sig0 : List Nat :=
  [0x9d, 0x03, 0x00, 0x01, 0xaa, 0xbb, 0xcc, 0xdd,
   0x00, 0x11, 0x22, 0x33, 0x44, 0x55, 0x66, 0x77,
   0x88, 0x99, 0xaa, 0xbb, 0xcc, 0xdd, 0xee, 0xff,
   0x10, 0x20, 0x30, 0x40, 0x50, 0x60, 0x70, 0x80]

/-! ## Strategy-ladder executor (`proxy/mempool/neon_tx_sender.py`)

The executor drives the fixed 10-entry strategy list.  The strategies
themselves (and the Solana / emulator interactions) live in other modules and
are abstracted as behavior inputs; the executor's control flow — nonce
prechecks, the retry loop, the `except` ladder and the `finally` refresh — is
translated statement by statement.  Python exceptions travel as
`Except NeonError`; every externally visible action is recorded in an event
trace. -/

/-- The errors that travel through the ladder's exception-driven control flow
(`common_neon/errors.py` names).  `otherFail` stands for any other
`BaseException`; its tag keeps distinct failures distinct. -/
inductive NeonError where
  | nonceTooLow (addr : String) (txNonce stateTxCnt : Nat)
  | nonceTooHigh
  | wrongStrategy
  | reschedule
  | bigTx
  | noMoreRetries
  | otherFail (code : Nat)
deriving DecidableEq, Repr

/-- The slice of `NeonTxSendCtx` the executor reads and writes: the mutable
`strategy_idx` / `state_tx_cnt` / completed-receipt flag / emulated result,
and the immutable tx facts (`neon_tx_info.nonce`, `neon_tx_info.addr`,
`is_stuck_tx()`, `config.retry_on_fail`). -/
structure NeonTxSendCtx where
  strategy_idx : Nat
  state_tx_cnt : Nat
  completed_receipt : Bool
  emulated_result : Option Nat
  nonce : Nat
  addr : String
  is_stuck : Bool
  retry_on_fail : Nat
deriving DecidableEq, Repr

/-- Externally visible actions of one executor run, in order. -/
inductive ExecEvent where
  | stateRefresh (value : Nat)
  | noncePrecheck
  | emulateCall
  | validateCall (idx : Nat) (ok : Bool)
  | prepCall (idx retry : Nat)
  | updateCall (idx retry : Nat)
  | execCall (idx retry : Nat)
  | cancelCall (idx : Nat)
deriving DecidableEq, Repr

/-- Whole-run state: the context, cursors into the two external oracles, and
the event trace. -/
structure ExecState where
  ctx : NeonTxSendCtx
  oracleCalls : Nat
  emuCalls : Nat
  events : List ExecEvent
deriving DecidableEq, Repr

/-- Behavior of one strategy object through the interface the executor calls
(`validate` / `complete_init` / `prep_before_emulate` /
`update_after_emulate` / `execute` / `has_completed_receipt` / `cancel`); the
per-retry functions take the retry index. -/
structure StrategyBehavior where
  validateOk : Except NeonError Bool
  completeInitOk : Except NeonError Unit
  prep : Nat → Except NeonError Bool
  updateAfterEmulate : Nat → Except NeonError Unit
  execute : Nat → Except NeonError Nat
  completedAfterExecute : Nat → Bool
  cancel : Except NeonError Unit

/-- The executor's environment: the behavior of the strategy at each ladder
index, the successive `solana.get_state_tx_cnt` answers, and the successive
`call_tx_emulated` outcomes. -/
structure ExecEnv where
  strategy : Nat → StrategyBehavior
  stateTxCnt : Nat → Nat
  emulated : Nat → Except NeonError Nat

/-- Length of `NeonTxSendStrategyExecutor._strategy_list` (10 strategies). -/
def strategyListLen : Nat := 10

/-- Source `_init_state_tx_cnt`: query the Chain for the sender's nonce and
store it in the context. -/
def initStateTxCnt (env : ExecEnv) (s : ExecState) : ExecState :=
  let v := env.stateTxCnt s.oracleCalls
  { s with
      ctx := { s.ctx with state_tx_cnt := v }
      oracleCalls := s.oracleCalls + 1
      events := s.events ++ [.stateRefresh v] }

/-- Source `_validate_nonce`: refresh `state_tx_cnt` first, then pass iff it
equals the tx nonce, raising `NonceTooHigh` below and `NonceTooLow` above. -/
def validateNonce (env : ExecEnv) (s : ExecState) :
    Except NeonError Unit × ExecState :=
  let s := { s with events := s.events ++ [.noncePrecheck] }
  let s := initStateTxCnt env s
  if s.ctx.state_tx_cnt = s.ctx.nonce then
    (.ok (), s)
  else if s.ctx.state_tx_cnt < s.ctx.nonce then
    (.error .nonceTooHigh, s)
  else
    (.error (.nonceTooLow s.ctx.addr s.ctx.nonce s.ctx.state_tx_cnt), s)

/-- Source `_emulate_neon_tx`: a no-op for stuck transactions; otherwise call
the emulator, store the result, and run the nonce precheck. -/
def emulateNeonTx (env : ExecEnv) (s : ExecState) :
    Except NeonError Unit × ExecState :=
  if s.ctx.is_stuck then
    (.ok (), s)
  else
    let r := env.emulated s.emuCalls
    let s := { s with emuCalls := s.emuCalls + 1, events := s.events ++ [.emulateCall] }
    match r with
    | .error e => (.error e, s)
    | .ok v =>
      let s := { s with ctx := { s.ctx with emulated_result := some v } }
      validateNonce env s

/-- The retry loop of `_execute` (structural on the remaining `fuel`, which
the caller passes as `retry_on_fail`; `retry` is the loop counter): prepare,
re-emulate and update on changes or on the first pass, loop while preparation
changed Chain state, otherwise execute — setting the completed-receipt flag in
a `finally` when the strategy reports it. -/
def execRetryLoop (env : ExecEnv) (idx : Nat) :
    Nat → Nat → ExecState → Except NeonError Nat × ExecState
  | 0, _, s => (.error .noMoreRetries, s)
  | fuel + 1, retry, s =>
    let b := env.strategy idx
    let s := { s with events := s.events ++ [.prepCall idx retry] }
    match b.prep retry with
    | .error e => (.error e, s)
    | .ok hasChanges =>
      let step : Except NeonError Unit × ExecState :=
        if hasChanges ∨ retry = 0 then
          let er :=
            if s.ctx.completed_receipt then (.ok (), s)
            else emulateNeonTx env s
          match er with
          | (.error e, s) => (.error e, s)
          | (.ok _, s) =>
            let s := { s with events := s.events ++ [.updateCall idx retry] }
            (b.updateAfterEmulate retry, s)
        else
          (.ok (), s)
      match step with
      | (.error e, s) => (.error e, s)
      | (.ok _, s) =>
        if hasChanges then
          execRetryLoop env idx fuel (retry + 1) s
        else
          let r := b.execute retry
          let s := { s with events := s.events ++ [.execCall idx retry] }
          let s :=
            if b.completedAfterExecute retry then
              { s with ctx := { s.ctx with completed_receipt := true } }
            else s
          (r, s)

/-- Source `_execute`: `complete_init`, persist the strategy index in the
context, then run the retry loop `retry_on_fail` times. -/
def execStrategy (env : ExecEnv) (idx : Nat) (s : ExecState) :
    Except NeonError Nat × ExecState :=
  match (env.strategy idx).completeInitOk with
  | .error e => (.error e, s)
  | .ok _ =>
    let s := { s with ctx := { s.ctx with strategy_idx := idx } }
    execRetryLoop env idx s.ctx.retry_on_fail 0 s

/-- The `try` body of one ladder iteration: skip the strategy when
`validate()` declines (`ok none`), otherwise run it (`ok (some result)`); any
raised error passes through. -/
def attemptStrategy (env : ExecEnv) (idx : Nat) (s : ExecState) :
    Except NeonError (Option Nat) × ExecState :=
  match (env.strategy idx).validateOk with
  | .error e => (.error e, s)
  | .ok false => (.ok none, { s with events := s.events ++ [.validateCall idx false] })
  | .ok true =>
    let s := { s with events := s.events ++ [.validateCall idx true] }
    match execStrategy env idx s with
    | (.ok v, s) => (.ok (some v), s)
    | (.error e, s) => (.error e, s)

/-- Source `_cancel`: call `strategy.cancel()`; a `RescheduleError` from the
cancel is re-raised, every other failure is logged and swallowed. -/
def cancelStrategy (env : ExecEnv) (idx : Nat) (s : ExecState) :
    Except NeonError Unit × ExecState :=
  let s := { s with events := s.events ++ [.cancelCall idx] }
  match (env.strategy idx).cancel with
  | .error .reschedule => (.error .reschedule, s)
  | _ => (.ok (), s)

/-- The `for strategy_idx in range(start, end)` loop of `execute` with its
`except` ladder and `finally` refresh (structural on the remaining index
count): `Reschedule` propagates untouched; `WrongStrategy` advances when no
receipt is completed and otherwise cancels and propagates; any other failure
cancels and propagates; `state_tx_cnt` is refreshed on every exit path. -/
def ladderLoop (env : ExecEnv) : Nat → Nat → ExecState → Except NeonError Nat × ExecState
  | 0, _, s => (.error .bigTx, s)
  | fuel + 1, idx, s =>
    if idx < strategyListLen then
      match attemptStrategy env idx s with
      | (.ok (some v), s) => (.ok v, initStateTxCnt env s)
      | (.ok none, s) => ladderLoop env fuel (idx + 1) (initStateTxCnt env s)
      | (.error .reschedule, s) => (.error .reschedule, initStateTxCnt env s)
      | (.error .wrongStrategy, s) =>
        if s.ctx.completed_receipt = false then
          ladderLoop env fuel (idx + 1) (initStateTxCnt env s)
        else
          match cancelStrategy env idx s with
          | (.error e2, s) => (.error e2, initStateTxCnt env s)
          | (.ok _, s) => (.error .wrongStrategy, initStateTxCnt env s)
      | (.error e, s) =>
        match cancelStrategy env idx s with
        | (.error e2, s) => (.error e2, initStateTxCnt env s)
        | (.ok _, s) => (.error e, initStateTxCnt env s)
    else
      (.error .bigTx, s)

/-- Source `NeonTxSendStrategyExecutor.execute`: the nonce precheck runs
first unless a receipt is already completed; then the ladder loop starts at
the persisted `strategy_idx`. -/
def executeLadder (env : ExecEnv) (s : ExecState) : Except NeonError Nat × ExecState :=
  let step : Except NeonError Unit × ExecState :=
    if s.ctx.completed_receipt = false then validateNonce env s else (.ok (), s)
  match step with
  | (.error e, s) => (.error e, s)
  | (.ok _, s) => ladderLoop env (strategyListLen - s.ctx.strategy_idx) s.ctx.strategy_idx s

/-- A strategy behavior whose `validate()` declines; used by closed witness
statements. -/
def behaviorSkip : StrategyBehavior :=
  { validateOk := .ok false
    completeInitOk := .ok ()
    prep := fun _ => .ok false
    updateAfterEmulate := fun _ => .ok ()
    execute := fun _ => .ok 0
    completedAfterExecute := fun _ => false
    cancel := .ok () }

/-- An environment of skipping strategies with a constant nonce oracle; used
by closed witness statements. -/
def envAllSkip : ExecEnv :=
  { strategy := fun _ => behaviorSkip
    stateTxCnt := fun _ => 5
    emulated := fun _ => .ok 0 }

/-- A fresh execution state (no completed receipt, empty trace); used by
closed witness statements. -/
def statePrecheck : ExecState :=
  { ctx := { strategy_idx := 0, state_tx_cnt := 0, completed_receipt := false,
             emulated_result := none, nonce := 5, addr := "0xsender",
             is_stuck := false, retry_on_fail := 3 }
    oracleCalls := 0
    emuCalls := 0
    events := [] }

/-- A strategy whose preparation raises `WrongStrategy` and whose `cancel()`
raises `Reschedule`; used by closed counterexample and witness statements. -/
def behaviorWrongStrategyPrep : StrategyBehavior :=
  { behaviorSkip with
      validateOk := .ok true
      prep := fun _ => .error .wrongStrategy
      cancel := .error .reschedule }

/-- The environment built from `behaviorWrongStrategyPrep`. -/
def envWrongCancel : ExecEnv :=
  { strategy := fun _ => behaviorWrongStrategyPrep
    stateTxCnt := fun _ => 5
    emulated := fun _ => .ok 0 }

/-- `statePrecheck` with a completed receipt (a resumed execution). -/
def stateCompleted : ExecState :=
  { statePrecheck with ctx := { statePrecheck.ctx with completed_receipt := true } }

/-- A strategy whose preparation always reports changed Chain state; used by
closed witness statements. -/
def behaviorThrash : StrategyBehavior :=
  { behaviorSkip with validateOk := .ok true, prep := fun _ => .ok true }

/-- The environment built from `behaviorThrash`. -/
def envThrash : ExecEnv :=
  { strategy := fun _ => behaviorThrash
    stateTxCnt := fun _ => 5
    emulated := fun _ => .ok 0 }

/-- A concrete 20-byte address used by closed witness statements (the EIP-55
reference example `0xfB6916095ca1df60bB79Ce92cE3Ea74c37c5d359`). -/
def addrBytes0 : List Nat :=
  [0xfb, 0x69, 0x16, 0x09, 0x5c, 0xa1, 0xdf, 0x60, 0xbb, 0x79,
   0xce, 0x92, 0xce, 0x3e, 0xa7, 0x4c, 0x37, 0xc5, 0xd3, 0x59]

/-! # Theorems -/

/-! ## Byte-level helper lemmas -/

theorem toBytesLEcore_length (x n : Nat) : (toBytesLEcore x n).length = n := by
  induction n generalizing x with
  | zero => rfl
  | succ n ih => simp [toBytesLEcore, ih]

theorem fromBytesLE_toBytesLEcore (x n : Nat) (h : x < 256 ^ n) :
    fromBytesLE (toBytesLEcore x n) = x := by
  induction n generalizing x with
  | zero =>
    simp [toBytesLEcore, fromBytesLE]
    omega
  | succ n ih =>
    simp only [toBytesLEcore, fromBytesLE]
    rw [ih]
    · omega
    · have hp : 256 ^ (n + 1) = 256 ^ n * 256 := by ring
      rw [hp] at h
      exact Nat.div_lt_of_lt_mul (by omega)

theorem fromBytesLE_lt (l : List Nat) (h : ∀ x ∈ l, x < 256) :
    fromBytesLE l < 256 ^ l.length := by
  induction l with
  | nil => simp [fromBytesLE]
  | cons b rest ih =>
    have hb : b < 256 := h b (by simp)
    have hr : fromBytesLE rest < 256 ^ rest.length := ih (fun x hx => h x (by simp [hx]))
    simp only [fromBytesLE, List.length_cons]
    have hp : 256 ^ (rest.length + 1) = 256 * 256 ^ rest.length := by ring
    rw [hp]
    omega

theorem hexDigitVal_hexDigitChar (d : Nat) (h : d < 16) :
    hexDigitVal (hexDigitChar d) = some d := by
  interval_cases d <;> rfl

theorem hexDigitChar_ne_space (d : Nat) (h : d < 16) : hexDigitChar d ≠ ' ' := by
  interval_cases d <;> decide

theorem pyBytesFromHexList_bytesToHexChars (l : List Nat) (h : ∀ x ∈ l, x < 256) :
    pyBytesFromHexList (bytesToHexChars l) = some l := by
  induction l with
  | nil => rfl
  | cons b rest ih =>
    have hb : b < 256 := h b (by simp)
    have h1 : b / 16 % 16 = b / 16 := Nat.mod_eq_of_lt (by omega)
    have h2 : 16 * (b / 16) + b % 16 = b := by omega
    simp only [bytesToHexChars, pyBytesFromHexList,
      if_neg (hexDigitChar_ne_space (b / 16 % 16) (by omega))]
    rw [h1, hexDigitVal_hexDigitChar (b / 16) (by omega),
      hexDigitVal_hexDigitChar (b % 16) (by omega),
      ih (fun x hx => h x (by simp [hx]))]
    simp [h2]

/-! ## C3: treasury-pool index and address derivation -/

/-- C3: for every transaction signature `tx_sig` and every
`treasury_pool_max > 0`, `init_neon_tx_sig` computes `treasury_pool_index` as
the little-endian u32 read from the first 4 bytes of `tx_sig` modulo
`treasury_pool_max`, serializes it as a 4-byte little-endian buffer, and
derives the treasury-pool address by program-address derivation from the seeds
`("treasury_pool", treasury_pool_index_bytes)` under the EVM program id. -/
theorem treasury_pool_index_derivation
    (fpa : List (List Nat) → SolPubKey → SolPubKey) (treasuryPoolMax : Nat)
    (b : NeonIxBuilder) (sig : List Nat)
    (hbytes : ∀ x ∈ sig, x < 256) (hmax : 0 < treasuryPoolMax) :
    ∃ b2, initNeonTxSig fpa treasuryPoolMax b (hexStrOfBytes sig) = some b2 ∧
      b2.neon_tx_sig = sig ∧
      b2.treasury_pool_index_buf = spec_u32_le (spec_treasury_pool_index sig treasuryPoolMax) ∧
      fromBytesLE b2.treasury_pool_index_buf = spec_treasury_pool_index sig treasuryPoolMax ∧
      b2.treasury_pool_address =
        fpa [asciiBytes "treasury_pool", b2.treasury_pool_index_buf] b.evm_program_id := by
  have hsig : pyBytesFromHexList ((hexStrOfBytes sig).toList.drop 2) = some sig := by
    simpa [hexStrOfBytes, String.toList] using pyBytesFromHexList_bytesToHexChars sig hbytes
  have hidx : spec_treasury_pool_index sig treasuryPoolMax < 256 ^ 4 := by
    have h1 : fromBytesLE (sig.take 4) < 256 ^ (sig.take 4).length :=
      fromBytesLE_lt _ (fun x hx => hbytes x (List.mem_of_mem_take hx))
    have h2 : (sig.take 4).length ≤ 4 := by simp
    have h3 : (256 : Nat) ^ (sig.take 4).length ≤ 256 ^ 4 :=
      Nat.pow_le_pow_right (by omega) h2
    have h4 : spec_treasury_pool_index sig treasuryPoolMax ≤ fromBytesLE (sig.take 4) :=
      Nat.mod_le _ _
    omega
  refine ⟨{ b with
              neon_tx_sig := sig
              treasury_pool_index_buf := spec_u32_le (spec_treasury_pool_index sig treasuryPoolMax)
              treasury_pool_address := fpa [asciiBytes "treasury_pool",
                spec_u32_le (spec_treasury_pool_index sig treasuryPoolMax)] b.evm_program_id },
          ?_, rfl, rfl, fromBytesLE_toBytesLEcore _ 4 hidx, rfl⟩
  have hidx2 : fromBytesLE (List.take 4 sig) % treasuryPoolMax < 256 ^ 4 := hidx
  simp only [initNeonTxSig, hsig, Option.bind_eq_bind, Option.some_bind,
    if_neg (by omega : ¬ treasuryPoolMax = 0), pyToBytesLE]
  rw [if_pos hidx2]
  rfl

/-- C3 witness: the derivation theorem applied at a concrete 32-byte
signature and `treasury_pool_max = 128`. -/
theorem treasury_pool_index_derivation_witness :
    ∃ b2, initNeonTxSig fpa0 128 builder0 (hexStrOfBytes sig0) = some b2 ∧
      b2.neon_tx_sig = sig0 ∧
      b2.treasury_pool_index_buf = spec_u32_le (spec_treasury_pool_index sig0 128) ∧
      fromBytesLE b2.treasury_pool_index_buf = spec_treasury_pool_index sig0 128 ∧
      b2.treasury_pool_address =
        fpa0 [asciiBytes "treasury_pool", b2.treasury_pool_index_buf] builder0.evm_program_id :=
  treasury_pool_index_derivation fpa0 128 builder0 sig0 (by decide) (by decide)

/-! ## C4: TxStep instruction data layout -/

/-- C4: for every step count and index below `2^32`, the data of the
`TxStepFromData` / `TxStepFromAccount` / `TxStepFromAccountNoChainId`
instructions is exactly the 1-byte opcode (`0x20` / `0x21` / `0x22`), the
4-byte `treasury_pool_index` buffer, `step_cnt` as u32 little-endian, `index`
as u32 little-endian, followed by the RLP-encoded signed transaction in the
`FromData` case only. -/
theorem tx_step_ix_data_layout (b : NeonIxBuilder) (stepCnt index : Nat)
    (hstep : stepCnt < 2 ^ 32) (hindex : index < 2 ^ 32) :
    (∃ ix, makeTxStepFromDataIx b stepCnt index = some ix ∧
       ix.data = [0x20] ++ b.treasury_pool_index_buf
         ++ spec_u32_le stepCnt ++ spec_u32_le index ++ b.msg) ∧
    (∃ ix, makeTxStepFromAccountIx b stepCnt index = some ix ∧
       ix.data = [0x21] ++ b.treasury_pool_index_buf
         ++ spec_u32_le stepCnt ++ spec_u32_le index) ∧
    (∃ ix, makeTxStepFromAccountNoChainIdIx b stepCnt index = some ix ∧
       ix.data = [0x22] ++ b.treasury_pool_index_buf
         ++ spec_u32_le stepCnt ++ spec_u32_le index) := by
  norm_num at hstep hindex
  refine ⟨⟨makeHolderIx b ([0x20] ++ b.treasury_pool_index_buf
            ++ spec_u32_le stepCnt ++ spec_u32_le index ++ b.msg), ?_, rfl⟩,
          ⟨makeHolderIx b ([0x21] ++ b.treasury_pool_index_buf
            ++ spec_u32_le stepCnt ++ spec_u32_le index), ?_, rfl⟩,
          ⟨makeHolderIx b ([0x22] ++ b.treasury_pool_index_buf
            ++ spec_u32_le stepCnt ++ spec_u32_le index), ?_, rfl⟩⟩ <;>
    simp [makeTxStepFromDataIx, makeTxStepFromAccountIx, makeTxStepFromAccountNoChainIdIx,
      makeTxStepIx, pyToBytesLE, hstep, hindex, ixCodeByte, EvmIxCode.value,
      spec_u32_le]

/-- C4 witness: the layout theorem applied at concrete step count `500` and
index `3`. -/
theorem tx_step_ix_data_layout_witness :
    (∃ ix, makeTxStepFromDataIx builder0 500 3 = some ix ∧
       ix.data = [0x20] ++ builder0.treasury_pool_index_buf
         ++ spec_u32_le 500 ++ spec_u32_le 3 ++ builder0.msg) ∧
    (∃ ix, makeTxStepFromAccountIx builder0 500 3 = some ix ∧
       ix.data = [0x21] ++ builder0.treasury_pool_index_buf
         ++ spec_u32_le 500 ++ spec_u32_le 3) ∧
    (∃ ix, makeTxStepFromAccountNoChainIdIx builder0 500 3 = some ix ∧
       ix.data = [0x22] ++ builder0.treasury_pool_index_buf
         ++ spec_u32_le 500 ++ spec_u32_le 3) :=
  tx_step_ix_data_layout builder0 500 3 (by decide) (by decide)

/-! ## C5: HolderWrite instruction data layout -/

/-- C5: for every offset below `2^64` and every chunk, the data of the
`HolderWrite` instruction is exactly the byte `0x26`, the transaction
signature bytes, the offset as u64 little-endian, then the chunk bytes. -/
theorem holder_write_ix_data_layout (b : NeonIxBuilder) (offset : Nat)
    (chunk : List Nat) (hoff : offset < 2 ^ 64) :
    ∃ ix, makeWriteIx b offset chunk = some ix ∧
      ix.data = [0x26] ++ b.neon_tx_sig ++ spec_u64_le offset ++ chunk := by
  norm_num at hoff
  refine ⟨{ program_id := b.evm_program_id
            data := [0x26] ++ b.neon_tx_sig ++ spec_u64_le offset ++ chunk
            accounts := [
              { pubkey := b.holder, is_signer := false, is_writable := true },
              { pubkey := b.operator_account, is_signer := true, is_writable := false }] },
          ?_, rfl⟩
  simp [makeWriteIx, pyToBytesLE, hoff, ixCodeByte, EvmIxCode.value, spec_u64_le]

/-- C5 witness: the layout theorem applied at a concrete offset and chunk. -/
theorem holder_write_ix_data_layout_witness :
    ∃ ix, makeWriteIx builder0 1930 [1, 2, 3] = some ix ∧
      ix.data = [0x26] ++ builder0.neon_tx_sig ++ spec_u64_le 1930 ++ [1, 2, 3] :=
  holder_write_ix_data_layout builder0 1930 [1, 2, 3] (by decide)

/-! ## C7: indexer start-slot resolution -/

/-- C7: at indexer startup, for every last-parsed slot, finalized slot and
first-available block, the start slot equals
`max(resolved_start_slot, first_available_block)` where the resolved start
slot is: the finalized slot for `LATEST`; the last parsed slot for `CONTINUE`
when it is positive, else the finalized slot; and `min(N, finalized)` but
never less than the last parsed slot, for a decimal `N`. -/
theorem indexer_start_slot_resolution (last latest first : Int) :
    indexerStartSlot "LATEST" last latest first = max latest first ∧
    indexerStartSlot "CONTINUE" last latest first =
      (if last > 0 then max last first else max latest first) ∧
    (∀ (cfg : String) (n : Int), pyParseIntDec cfg = some n →
      cfg ≠ "CONTINUE" → cfg ≠ "LATEST" →
      indexerStartSlot cfg last latest first = max (max (min n latest) last) first) := by
  have hne : ("LATEST" : String) ≠ "CONTINUE" := by decide
  refine ⟨?_, ?_, ?_⟩
  · simp [indexerStartSlot, getStartSlot, eq_false hne]
  · by_cases h : last > 0 <;> simp [indexerStartSlot, getStartSlot, h]
  · intro cfg n hp hc hl
    simp only [indexerStartSlot, getStartSlot, eq_false hc, eq_false hl, hp, false_and,
      false_or, if_false, not_false_iff, if_true, ite_false, ite_true]
    split <;> omega

/-- C7 witness: the start-slot theorem applied at concrete slots, including
the decimal-config case. -/
theorem indexer_start_slot_resolution_witness :
    indexerStartSlot "240" 5 100 7 = max (max (min 240 100) 5) 7 :=
  (indexer_start_slot_resolution 5 100 7).2.2 "240" 240 (by decide)
    (by decide) (by decide)

/-! ## C8: `eth_getTransactionCount` per block tag -/

/-- C8: for every valid account and tag, `eth_getTransactionCount` returns
the max of the on-Chain nonce (at processed commitment) and the mempool
pending-tx nonce for `pending`; the max of the on-Chain nonce and the
mempool any-state nonce for `latest`; the nonce at finalized commitment for
`finalized` and `safe`; and the nonce at confirmed commitment otherwise. -/
theorem tx_count_by_tag (p m : Nat) (chain : SolCommit → Nat)
    (account acctOut : String)
    (hacct : normalizeAddress account "address" = .ok acctOut) :
    ethGetTransactionCount ⟨.ok (some p), .ok (some m), fun c => .ok (chain c)⟩
        account (.str "pending") = .ok (pyHex (max (chain .processed) p)) ∧
    ethGetTransactionCount ⟨.ok (some p), .ok (some m), fun c => .ok (chain c)⟩
        account (.str "latest") = .ok (pyHex (max (chain .processed) m)) ∧
    ethGetTransactionCount ⟨.ok (some p), .ok (some m), fun c => .ok (chain c)⟩
        account (.str "finalized") = .ok (pyHex (chain .finalized)) ∧
    ethGetTransactionCount ⟨.ok (some p), .ok (some m), fun c => .ok (chain c)⟩
        account (.str "safe") = .ok (pyHex (chain .finalized)) ∧
    (∀ tag, validateBlockTag tag = .ok () →
      tag ≠ .str "pending" → tag ≠ .str "latest" →
      tag ≠ .str "finalized" → tag ≠ .str "safe" →
      ethGetTransactionCount ⟨.ok (some p), .ok (some m), fun c => .ok (chain c)⟩
        account tag = .ok (pyHex (chain .confirmed))) := by
  refine ⟨?_, ?_, ?_, ?_, ?_⟩
  · simp [ethGetTransactionCount, txCountBody, validateBlockTag, hacct,
      Bind.bind, Except.bind, Pure.pure, Except.pure]
  · simp [ethGetTransactionCount, txCountBody, validateBlockTag, hacct,
      Bind.bind, Except.bind, Pure.pure, Except.pure]
  · simp [ethGetTransactionCount, txCountBody, validateBlockTag, hacct,
      Bind.bind, Except.bind, Pure.pure, Except.pure]
  · simp [ethGetTransactionCount, txCountBody, validateBlockTag, hacct,
      Bind.bind, Except.bind, Pure.pure, Except.pure]
  · intro tag hval h1 h2 h3 h4
    simp [ethGetTransactionCount, txCountBody, hval, hacct, h1, h2, h3, h4,
      Bind.bind, Except.bind, Pure.pure, Except.pure]

/-- C8 witness: the per-tag theorem applied at the zero address and concrete
nonces. -/
theorem tx_count_by_tag_witness :
    ethGetTransactionCount ⟨.ok (some 7), .ok (some 9), fun _ => .ok 5⟩
        "0x0000000000000000000000000000000000000000" (.str "pending")
      = .ok (pyHex (max 5 7)) ∧
    ethGetTransactionCount ⟨.ok (some 7), .ok (some 9), fun _ => .ok 5⟩
        "0x0000000000000000000000000000000000000000" (.str "latest")
      = .ok (pyHex (max 5 9)) :=
  have h := tx_count_by_tag 7 9 (fun _ => 5)
    "0x0000000000000000000000000000000000000000"
    "0x0000000000000000000000000000000000000000" (by rfl)
  ⟨h.1, h.2.1⟩

/-! ## C10: failures inside `eth_getTransactionCount` are swallowed -/

/-- C10: for every account and tag passing validation and normalization,
`eth_getTransactionCount` never raises: it always returns a value, and
whenever the `try`-block body fails (any mempool or Chain query raising), it
returns the string `0x0`. -/
theorem tx_count_swallows_failures (env : TxCountEnv) (account : String)
    (tag : BlockTag) (acctOut : String)
    (hval : validateBlockTag tag = .ok ())
    (hacct : normalizeAddress account "address" = .ok acctOut) :
    (∃ s, ethGetTransactionCount env account tag = .ok s) ∧
    (∀ e, txCountBody env tag = .error e →
      ethGetTransactionCount env account tag = .ok "0x0") := by
  constructor
  · cases h : txCountBody env tag with
    | ok n => exact ⟨pyHex n, by simp [ethGetTransactionCount, hval, hacct, h,
        Bind.bind, Except.bind, Pure.pure, Except.pure]⟩
    | error e => exact ⟨"0x0", by simp [ethGetTransactionCount, hval, hacct, h, pyHex,
        Bind.bind, Except.bind, Pure.pure, Except.pure]⟩
  · intro e he
    simp [ethGetTransactionCount, hval, hacct, he, pyHex,
      Bind.bind, Except.bind, Pure.pure, Except.pure]

/-- C10 witness: the failure-swallowing theorem applied with every external
query failing. -/
theorem tx_count_swallows_failures_witness :
    ethGetTransactionCount ⟨.error (), .error (), fun _ => .error ()⟩
        "0x0000000000000000000000000000000000000000" (.str "pending")
      = .ok "0x0" :=
  (tx_count_swallows_failures ⟨.error (), .error (), fun _ => .error ()⟩
      "0x0000000000000000000000000000000000000000" (.str "pending")
      "0x0000000000000000000000000000000000000000" (by rfl) (by rfl)).2 () (by rfl)

/-! ## C9: address normalization -/

theorem pyLowerChar_whitespace (c : Char) (h : isPyWhitespaceChar c = true) :
    pyLowerChar c = c := by
  have hc : c = ' ' ∨ c = '\t' ∨ c = '\n' ∨ c = '\r' := by
    simpa [isPyWhitespaceChar, Bool.or_eq_true, decide_eq_true_eq, or_assoc] using h
  rcases hc with rfl | rfl | rfl | rfl <;> rfl

theorem not_ws_of_lower_not_ws (c : Char)
    (h : isPyWhitespaceChar (pyLowerChar c) = false) :
    isPyWhitespaceChar c = false := by
  by_cases hc : isPyWhitespaceChar c = true
  · rw [pyLowerChar_whitespace c hc] at h
    rw [h] at hc
    exact absurd hc (by simp)
  · simpa using hc

theorem dropWhile_append_all (p : Char → Bool) (w l : List Char)
    (hw : ∀ c ∈ w, p c = true) :
    List.dropWhile p (w ++ l) = List.dropWhile p l := by
  induction w with
  | nil => rfl
  | cons c cs ih =>
    simp only [List.cons_append, List.dropWhile_cons, hw c (by simp), if_true]
    exact ih (fun x hx => hw x (by simp [hx]))

theorem dropWhile_of_head_neg (p : Char → Bool) (l : List Char) (c : Char)
    (hc : l.head? = some c) (hp : p c = false) : List.dropWhile p l = l := by
  cases l with
  | nil => simp at hc
  | cons a t =>
    have : a = c := by simpa using hc
    subst this
    simp [List.dropWhile_cons, hp]

theorem pyStrip_sandwich (w1 w2 mid : List Char)
    (hw1 : ∀ c ∈ w1, isPyWhitespaceChar c = true)
    (hw2 : ∀ c ∈ w2, isPyWhitespaceChar c = true)
    (hhead : ∀ c, mid.head? = some c → isPyWhitespaceChar c = false)
    (hlast : ∀ c, mid.getLast? = some c → isPyWhitespaceChar c = false) :
    pyStrip (w1 ++ mid ++ w2) = mid := by
  unfold pyStrip
  cases mid with
  | nil =>
    have h1 : List.dropWhile isPyWhitespaceChar (w1 ++ w2) = [] := by
      rw [dropWhile_append_all _ _ _ hw1]
      exact List.dropWhile_eq_nil_iff.mpr (fun c hc => by simp [hw2 c hc])
    simp [h1]
  | cons c0 rest =>
    have hc0 : isPyWhitespaceChar c0 = false := hhead c0 rfl
    obtain ⟨cl, hcl⟩ : ∃ cl, (c0 :: rest).getLast? = some cl := by
      cases h : (c0 :: rest).getLast? with
      | none => exact absurd h (by simp)
      | some x => exact ⟨x, rfl⟩
    have hclws : isPyWhitespaceChar cl = false := hlast cl hcl
    have h1 : List.dropWhile isPyWhitespaceChar (w1 ++ (c0 :: rest) ++ w2)
        = (c0 :: rest) ++ w2 := by
      rw [List.append_assoc, dropWhile_append_all _ _ _ hw1]
      simp [List.dropWhile_cons, hc0]
    rw [h1]
    have h2 : List.dropWhile isPyWhitespaceChar (((c0 :: rest) ++ w2).reverse)
        = (c0 :: rest).reverse := by
      rw [List.reverse_append, dropWhile_append_all _ _ _
        (fun c hc => hw2 c (by simpa using hc))]
      exact dropWhile_of_head_neg _ _ cl (by rw [List.head?_reverse]; exact hcl) hclws
    rw [h2, List.reverse_reverse]

theorem getLast?_map_char (f : Char → Char) (cs : List Char) :
    (cs.map f).getLast? = cs.getLast?.map f := by
  induction cs with
  | nil => rfl
  | cons c t ih =>
    cases t with
    | nil => rfl
    | cons d u =>
      simpa [List.getLast?_cons_cons] using ih

theorem mem_of_getLast?_eq {l : List Char} {c : Char} (h : l.getLast? = some c) :
    c ∈ l := by
  induction l with
  | nil => simp at h
  | cons a t ih =>
    cases t with
    | nil =>
      have : a = c := by simpa using h
      simp [this]
    | cons b u =>
      rw [List.getLast?_cons_cons] at h
      exact List.mem_cons_of_mem a (ih h)

theorem bytesToHexChars_length (l : List Nat) :
    (bytesToHexChars l).length = 2 * l.length := by
  induction l with
  | nil => rfl
  | cons b rest ih => simp [bytesToHexChars, ih]; omega

theorem mem_bytesToHexChars (l : List Nat) (x : Char) (h : x ∈ bytesToHexChars l) :
    ∃ d, d < 16 ∧ x = hexDigitChar d := by
  induction l with
  | nil => simp [bytesToHexChars] at h
  | cons b rest ih =>
    simp only [bytesToHexChars, List.mem_cons] at h
    rcases h with rfl | rfl | h
    · exact ⟨b / 16 % 16, Nat.mod_lt _ (by omega), rfl⟩
    · exact ⟨b % 16, Nat.mod_lt _ (by omega), rfl⟩
    · exact ih h

theorem hexDigitChar_not_ws (d : Nat) (h : d < 16) :
    isPyWhitespaceChar (hexDigitChar d) = false := by
  interval_cases d <;> decide

theorem hexDigitChar_ne_x (d : Nat) (h : d < 16) :
    hexDigitChar d ≠ 'x' ∧ hexDigitChar d ≠ 'X' := by
  interval_cases d <;> exact ⟨by decide, by decide⟩

theorem all_hex_bytesToHexChars (l : List Nat) :
    (bytesToHexChars l).all (fun c => (hexDigitVal c).isSome) = true := by
  induction l with
  | nil => rfl
  | cons b rest ih =>
    have h1 := hexDigitVal_hexDigitChar (b / 16 % 16) (Nat.mod_lt _ (by omega))
    have h2 := hexDigitVal_hexDigitChar (b % 16) (Nat.mod_lt _ (by omega))
    simp [bytesToHexChars, h1, h2, ih]

theorem toChecksumAddress_of_hex (bs : List Nat) (h20 : bs.length = 20) :
    ∃ out, toChecksumAddress (String.mk (bytesToHexChars bs)) = some out := by
  obtain ⟨b0, rest, rfl⟩ : ∃ b0 rest, bs = b0 :: rest := by
    cases bs with
    | nil => simp at h20
    | cons a t => exact ⟨a, t, rfl⟩
  have hx := hexDigitChar_ne_x (b0 % 16) (Nat.mod_lt _ (by omega))
  have hcond : ¬ ((bytesToHexChars (b0 :: rest)).take 2 = ['0', 'x'] ∨
      (bytesToHexChars (b0 :: rest)).take 2 = ['0', 'X']) := by
    simp only [bytesToHexChars, List.take_cons, List.take_zero]
    rintro (h | h) <;>
      · injection h with h1 h2
        injection h2 with h2 _
        first
          | exact hx.1 h2
          | exact hx.2 h2
  have hlen : (bytesToHexChars (b0 :: rest)).length = 40 := by
    rw [bytesToHexChars_length, h20]
  have hs : (toChecksumAddress (String.mk (bytesToHexChars (b0 :: rest)))).isSome = true := by
    simp only [toChecksumAddress, String.toList]
    rw [if_neg hcond, if_pos ⟨hlen, all_hex_bytesToHexChars _⟩]
    rfl
  exact Option.isSome_iff_exists.mp hs

/-- C9 counterexample: on the already-trimmed, lower-case, well-formed
address `0xfb6916095ca1df60bb79ce92ce3ea74c37c5d359`, `_normalize_address`
returns the EIP-55 mixed-case checksum form, not the lower-cased address the
claim states. -/
theorem normalize_address_not_lowercase :
    normalizeAddress "0xfb6916095ca1df60bb79ce92ce3ea74c37c5d359" "address"
      = .ok "0xfB6916095ca1df60bB79Ce92cE3Ea74c37c5d359" ∧
    ("0xfB6916095ca1df60bB79Ce92cE3Ea74c37c5d359" : String)
      ≠ "0xfb6916095ca1df60bb79ce92ce3ea74c37c5d359" :=
  ⟨by rfl, by decide⟩

/-- C9 (amended): `_normalize_address` trims surrounding whitespace,
lower-cases, requires a `0x` prefix and exactly 20 bytes of hex, and yields
the EIP-55 checksummed `0x`-prefixed address (not the lower-cased one); every
rejected input produces an `InvalidParam` error naming the field
(`bad address: …`). -/
theorem normalize_address_amended :
    (∀ (raw : String) (e : RpcError),
        normalizeAddress raw "address" = .error e →
        e = .invalidParam ("bad address: " ++ raw)) ∧
    (∀ (w1 w2 cs : List Char) (bs : List Nat),
        (∀ c ∈ w1, isPyWhitespaceChar c = true) →
        (∀ c ∈ w2, isPyWhitespaceChar c = true) →
        cs.map pyLowerChar = '0' :: 'x' :: bytesToHexChars bs →
        bs.length = 20 →
        (∀ x ∈ bs, x < 256) →
        ∃ out, toChecksumAddress (String.mk (bytesToHexChars bs)) = some out ∧
          normalizeAddress (String.mk (w1 ++ cs ++ w2)) "address" = .ok out) := by
  constructor
  · intro raw e h
    simp only [normalizeAddress] at h
    split at h
    · split at h
      · split at h
        · split at h
          · exact Except.noConfusion h
          · cases h; rfl
        · cases h; rfl
      · cases h; rfl
    · cases h; rfl
  · intro w1 w2 cs bs hw1 hw2 hlower h20 hb
    obtain ⟨c0, cs1, rfl⟩ : ∃ c0 cs1, cs = c0 :: cs1 := by
      cases cs with
      | nil => simp at hlower
      | cons a t => exact ⟨a, t, rfl⟩
    have hc0 : pyLowerChar c0 = '0' := by
      simpa using congrArg List.head? hlower
    have hhead : ∀ c, (c0 :: cs1).head? = some c → isPyWhitespaceChar c = false := by
      intro c hch
      have : c0 = c := by simpa using hch
      subst this
      exact not_ws_of_lower_not_ws c0 (by rw [hc0]; decide)
    have hlastf : ∀ c, (c0 :: cs1).getLast? = some c → isPyWhitespaceChar c = false := by
      intro c hcl
      have h1 : ((c0 :: cs1).map pyLowerChar).getLast? = some (pyLowerChar c) := by
        rw [getLast?_map_char, hcl]
        rfl
      rw [hlower] at h1
      have hmem := mem_of_getLast?_eq h1
      apply not_ws_of_lower_not_ws
      simp only [List.mem_cons] at hmem
      rcases hmem with h | h | h
      · rw [h]; decide
      · rw [h]; decide
      · obtain ⟨d, hd16, hdeq⟩ := mem_bytesToHexChars _ _ h
        rw [hdeq]
        exact hexDigitChar_not_ws d hd16
    have hstrip : pyStrip ((String.mk (w1 ++ (c0 :: cs1) ++ w2)).toList) = c0 :: cs1 :=
      pyStrip_sandwich w1 w2 _ hw1 hw2 hhead hlastf
    obtain ⟨out, hout⟩ := toChecksumAddress_of_hex bs h20
    refine ⟨out, hout, ?_⟩
    simp only [normalizeAddress, hstrip, hlower]
    rw [if_pos (by simp)]
    have hdrop : ('0' :: 'x' :: bytesToHexChars bs).drop 2 = bytesToHexChars bs := rfl
    rw [hdrop, pyBytesFromHexList_bytesToHexChars bs hb]
    simp [h20, hout]

/-- C9 witness (for the amended theorem): a whitespace-padded upper-case
rendering of the EIP-55 example address normalizes to its checksummed form. -/
theorem normalize_address_amended_witness :
    ∃ out, toChecksumAddress (String.mk (bytesToHexChars addrBytes0)) = some out ∧
      normalizeAddress (String.mk ([' ']
          ++ "0XFB6916095CA1DF60BB79CE92CE3EA74C37C5D359".toList
          ++ [' '])) "address" = .ok out :=
  normalize_address_amended.2 [' '] [' ']
    "0XFB6916095CA1DF60BB79CE92CE3EA74C37C5D359".toList addrBytes0
    (by decide) (by decide) (by decide) (by decide) (by decide)

/-! ## Event-trace lemmas for the strategy-ladder executor -/

theorem initStateTxCnt_events (env : ExecEnv) (s : ExecState) :
    (initStateTxCnt env s).events
      = s.events ++ [.stateRefresh (env.stateTxCnt s.oracleCalls)] := rfl

theorem initStateTxCnt_ctx (env : ExecEnv) (s : ExecState) :
    (initStateTxCnt env s).ctx
      = { s.ctx with state_tx_cnt := env.stateTxCnt s.oracleCalls } := rfl

theorem validateNonce_events (env : ExecEnv) (s : ExecState) :
    (validateNonce env s).2.events
      = s.events ++ [.noncePrecheck, .stateRefresh (env.stateTxCnt s.oracleCalls)] := by
  simp only [validateNonce, initStateTxCnt]
  split_ifs <;> simp

theorem emulateNeonTx_events (env : ExecEnv) (s : ExecState) :
    ∃ t, (emulateNeonTx env s).2.events = s.events ++ t ∧
      ∀ x ∈ t, x = .emulateCall ∨ x = .noncePrecheck ∨ ∃ v, x = .stateRefresh v := by
  unfold emulateNeonTx
  split
  · exact ⟨[], by simp⟩
  · cases henv : env.emulated s.emuCalls with
    | error e =>
      refine ⟨[.emulateCall], ?_, by simp⟩
      simp [henv]
    | ok v =>
      refine ⟨[.emulateCall, .noncePrecheck,
        .stateRefresh (env.stateTxCnt s.oracleCalls)], ?_, by simp⟩
      simp [henv, validateNonce_events]

theorem cancelStrategy_events (env : ExecEnv) (idx : Nat) (s : ExecState) :
    (cancelStrategy env idx s).2.events = s.events ++ [.cancelCall idx] := by
  unfold cancelStrategy
  split <;> simp

theorem execRetryLoop_events (env : ExecEnv) (idx fuel retry : Nat) (s : ExecState) :
    ∃ t, (execRetryLoop env idx fuel retry s).2.events = s.events ++ t ∧
      ∀ x ∈ t, (∃ k, x = .prepCall idx k) ∨ (∃ k, x = .updateCall idx k) ∨
        (∃ k, x = .execCall idx k ∧ (env.strategy idx).prep k = .ok false) ∨
        x = .emulateCall ∨ x = .noncePrecheck ∨ ∃ v, x = .stateRefresh v := by
  induction fuel generalizing retry s with
  | zero => exact ⟨[], by simp [execRetryLoop]⟩
  | succ fuel ih =>
    unfold execRetryLoop
    cases hp : (env.strategy idx).prep retry with
    | error e =>
      refine ⟨[.prepCall idx retry], ?_, by simp⟩
      simp [hp]
    | ok hasChanges =>
      simp only [hp]
      cases hasChanges with
      | true =>
        simp only [eq_self_iff_true, true_or, if_true, if_pos]
        by_cases hcompl : s.ctx.completed_receipt = true
        · rw [if_pos hcompl]
          cases hu : (env.strategy idx).updateAfterEmulate retry with
          | error e =>
            refine ⟨[.prepCall idx retry, .updateCall idx retry], ?_, by simp⟩
            simp [hu]
          | ok _ =>
            simp only [hu]
            obtain ⟨t2, ht2, hp2⟩ := ih (retry + 1)
              { s with events := (s.events ++ [ExecEvent.prepCall idx retry])
                  ++ [ExecEvent.updateCall idx retry] }
            refine ⟨[.prepCall idx retry, .updateCall idx retry] ++ t2, ?_, ?_⟩
            · rw [ht2]
              simp
            · intro x hx
              simp only [List.mem_append, List.mem_cons,
                List.not_mem_nil, or_false] at hx
              rcases hx with (h | h) | h
              · exact Or.inl ⟨retry, h⟩
              · exact Or.inr (Or.inl ⟨retry, h⟩)
              · exact hp2 x h
        · rw [if_neg hcompl]
          obtain ⟨t1, ht1, hq1⟩ := emulateNeonTx_events env
            { s with events := s.events ++ [ExecEvent.prepCall idx retry] }
          rcases hm : emulateNeonTx env
            { s with events := s.events ++ [ExecEvent.prepCall idx retry] } with ⟨r, s2⟩
          rw [hm] at ht1
          simp only at ht1
          cases r with
          | error e =>
            refine ⟨[.prepCall idx retry] ++ t1, ?_, ?_⟩
            · simp only []
              rw [ht1]
              simp
            · intro x hx
              simp only [List.mem_append, List.mem_cons,
                List.not_mem_nil, or_false] at hx
              rcases hx with h | h
              · exact Or.inl ⟨retry, h⟩
              · rcases hq1 x h with h | h | h <;> simp [h]
          | ok _ =>
            cases hu : (env.strategy idx).updateAfterEmulate retry with
            | error e =>
              refine ⟨[.prepCall idx retry] ++ t1 ++ [.updateCall idx retry], ?_, ?_⟩
              · simp only [hu]
                rw [ht1]
                simp
              · intro x hx
                simp only [List.mem_append, List.mem_cons,
                  List.not_mem_nil, or_false] at hx
                rcases hx with (h | h) | h
                · exact Or.inl ⟨retry, h⟩
                · rcases hq1 x h with h | h | h <;> simp [h]
                · exact Or.inr (Or.inl ⟨retry, h⟩)
            | ok _ =>
              simp only [hu]
              obtain ⟨t2, ht2, hp2⟩ := ih (retry + 1)
                { s2 with events := s2.events ++ [ExecEvent.updateCall idx retry] }
              refine ⟨[.prepCall idx retry] ++ t1 ++ [.updateCall idx retry] ++ t2, ?_, ?_⟩
              · rw [ht2]
                simp only []
                rw [ht1]
                simp
              · intro x hx
                simp only [List.mem_append, List.mem_cons,
                  List.not_mem_nil, or_false] at hx
                rcases hx with ((h | h) | h) | h
                · exact Or.inl ⟨retry, h⟩
                · rcases hq1 x h with h | h | h <;> simp [h]
                · exact Or.inr (Or.inl ⟨retry, h⟩)
                · exact hp2 x h
      | false =>
        have hxc : (env.strategy idx).prep retry = Except.ok false := hp
        by_cases hr : retry = 0
        · subst hr
          simp only [eq_self_iff_true, or_true, if_true, Bool.false_eq_true,
            false_or, if_false]
          by_cases hcompl : s.ctx.completed_receipt = true
          · rw [if_pos hcompl]
            cases hu : (env.strategy idx).updateAfterEmulate 0 with
            | error e =>
              refine ⟨[.prepCall idx 0, .updateCall idx 0], ?_, by simp⟩
              simp [hu]
            | ok _ =>
              simp only [hu]
              refine ⟨[.prepCall idx 0, .updateCall idx 0, .execCall idx 0], ?_, ?_⟩
              · split <;> simp
              · intro x hx
                simp only [List.mem_cons, List.not_mem_nil, or_false] at hx
                rcases hx with h | h | h
                · exact Or.inl ⟨0, h⟩
                · exact Or.inr (Or.inl ⟨0, h⟩)
                · exact Or.inr (Or.inr (Or.inl ⟨0, h, hxc⟩))
          · rw [if_neg hcompl]
            obtain ⟨t1, ht1, hq1⟩ := emulateNeonTx_events env
              { s with events := s.events ++ [ExecEvent.prepCall idx 0] }
            rcases hm : emulateNeonTx env
              { s with events := s.events ++ [ExecEvent.prepCall idx 0] } with ⟨r, s2⟩
            rw [hm] at ht1
            simp only at ht1
            cases r with
            | error e =>
              refine ⟨[.prepCall idx 0] ++ t1, ?_, ?_⟩
              · simp only []
                rw [ht1]
                simp
              · intro x hx
                simp only [List.mem_append, List.mem_cons,
                  List.not_mem_nil, or_false] at hx
                rcases hx with h | h
                · exact Or.inl ⟨0, h⟩
                · rcases hq1 x h with h | h | h <;> simp [h]
            | ok _ =>
              cases hu : (env.strategy idx).updateAfterEmulate 0 with
              | error e =>
                refine ⟨[.prepCall idx 0] ++ t1 ++ [.updateCall idx 0], ?_, ?_⟩
                · simp only [hu]
                  rw [ht1]
                  simp
                · intro x hx
                  simp only [List.mem_append, List.mem_cons,
                    List.not_mem_nil, or_false] at hx
                  rcases hx with (h | h) | h
                  · exact Or.inl ⟨0, h⟩
                  · rcases hq1 x h with h | h | h <;> simp [h]
                  · exact Or.inr (Or.inl ⟨0, h⟩)
              | ok _ =>
                simp only [hu]
                refine ⟨[.prepCall idx 0] ++ t1
                  ++ [.updateCall idx 0, .execCall idx 0], ?_, ?_⟩
                · split <;>
                    · simp only []
                      rw [ht1]
                      simp
                · intro x hx
                  simp only [List.mem_append, List.mem_cons,
                    List.not_mem_nil, or_false] at hx
                  rcases hx with (h | h) | h | h
                  · exact Or.inl ⟨0, h⟩
                  · rcases hq1 x h with h | h | h <;> simp [h]
                  · exact Or.inr (Or.inl ⟨0, h⟩)
                  · exact Or.inr (Or.inr (Or.inl ⟨0, h, hxc⟩))
        · simp only [Bool.false_eq_true, false_or, if_neg hr, if_false]
          refine ⟨[.prepCall idx retry, .execCall idx retry], ?_, ?_⟩
          · split <;> simp
          · intro x hx
            simp only [List.mem_cons, List.not_mem_nil, or_false] at hx
            rcases hx with h | h
            · exact Or.inl ⟨retry, h⟩
            · exact Or.inr (Or.inr (Or.inl ⟨retry, h, hxc⟩))

theorem execStrategy_events (env : ExecEnv) (idx : Nat) (s : ExecState) :
    ∃ t, (execStrategy env idx s).2.events = s.events ++ t ∧
      ∀ x ∈ t, (∃ k, x = .prepCall idx k) ∨ (∃ k, x = .updateCall idx k) ∨
        (∃ k, x = .execCall idx k ∧ (env.strategy idx).prep k = .ok false) ∨
        x = .emulateCall ∨ x = .noncePrecheck ∨ ∃ v, x = .stateRefresh v := by
  unfold execStrategy
  cases hci : (env.strategy idx).completeInitOk with
  | error e => exact ⟨[], by simp, by simp⟩
  | ok _ =>
    simpa using execRetryLoop_events env idx _ 0
      { s with ctx := { s.ctx with strategy_idx := idx } }

theorem attemptStrategy_events (env : ExecEnv) (idx : Nat) (s : ExecState) :
    ∃ t, (attemptStrategy env idx s).2.events = s.events ++ t ∧
      ∀ x ∈ t, (∃ ok, x = .validateCall idx ok) ∨
        (∃ k, x = .prepCall idx k) ∨ (∃ k, x = .updateCall idx k) ∨
        (∃ k, x = .execCall idx k ∧ (env.strategy idx).prep k = .ok false) ∨
        x = .emulateCall ∨ x = .noncePrecheck ∨ ∃ v, x = .stateRefresh v := by
  unfold attemptStrategy
  cases hv : (env.strategy idx).validateOk with
  | error e => exact ⟨[], by simp, by simp⟩
  | ok b =>
    cases b with
    | false => exact ⟨[.validateCall idx false], by simp, by simp⟩
    | true =>
      obtain ⟨t1, ht1, hq1⟩ := execStrategy_events env idx
        { s with events := s.events ++ [ExecEvent.validateCall idx true] }
      rcases hm : execStrategy env idx
        { s with events := s.events ++ [ExecEvent.validateCall idx true] } with ⟨r, s2⟩
      rw [hm] at ht1
      simp only at ht1
      refine ⟨[.validateCall idx true] ++ t1, ?_, ?_⟩
      · cases r <;> simp [hm, ht1]
      · intro x hx
        simp only [List.mem_append, List.mem_cons, List.not_mem_nil, or_false] at hx
        rcases hx with h | h
        · exact Or.inl ⟨true, h⟩
        · exact Or.inr (hq1 x h)

theorem ladderLoop_events (env : ExecEnv) (fuel idx : Nat) (s : ExecState) :
    ∃ t, (ladderLoop env fuel idx s).2.events = s.events ++ t := by
  induction fuel generalizing idx s with
  | zero => exact ⟨[], by simp [ladderLoop]⟩
  | succ fuel ih =>
    unfold ladderLoop
    by_cases hidx : idx < strategyListLen
    · rw [if_pos hidx]
      obtain ⟨t1, ht1, _⟩ := attemptStrategy_events env idx s
      rcases hm : attemptStrategy env idx s with ⟨r, s1⟩
      rw [hm] at ht1
      simp only at ht1
      have hrefresh : (initStateTxCnt env s1).events
          = s.events ++ (t1 ++ [.stateRefresh (env.stateTxCnt s1.oracleCalls)]) := by
        rw [initStateTxCnt_events, ht1]
        simp
      cases r with
      | ok o =>
        cases o with
        | some v => exact ⟨_, hrefresh⟩
        | none =>
          obtain ⟨t2, ht2⟩ := ih (idx + 1) (initStateTxCnt env s1)
          rw [hrefresh] at ht2
          exact ⟨_, by rw [ht2, List.append_assoc]⟩
      | error e =>
        have hcancel : ∀ s3 : ExecState, (cancelStrategy env idx s1) = (.ok (), s3) ∨
            (cancelStrategy env idx s1) = (.error .reschedule, s3) →
            s3.events = s1.events ++ [ExecEvent.cancelCall idx] := by
          intro s3 h
          have := cancelStrategy_events env idx s1
          rcases h with h | h <;> rw [h] at this <;> simpa using this
        cases e with
        | reschedule => exact ⟨_, hrefresh⟩
        | wrongStrategy =>
          simp only []
          by_cases hcompl : s1.ctx.completed_receipt = false
          · rw [if_pos hcompl]
            obtain ⟨t2, ht2⟩ := ih (idx + 1) (initStateTxCnt env s1)
            rw [hrefresh] at ht2
            exact ⟨_, by rw [ht2, List.append_assoc]⟩
          · rw [if_neg hcompl]
            rcases hc2 : cancelStrategy env idx s1 with ⟨rc, s3⟩
            have hs3 : s3.events = s1.events ++ [ExecEvent.cancelCall idx] := by
              have := cancelStrategy_events env idx s1
              rw [hc2] at this
              simpa using this
            cases rc with
            | error e2 =>
              refine ⟨t1 ++ [.cancelCall idx,
                .stateRefresh (env.stateTxCnt s3.oracleCalls)], ?_⟩
              simp only [hc2]
              rw [initStateTxCnt_events, hs3, ht1]
              simp
            | ok _ =>
              refine ⟨t1 ++ [.cancelCall idx,
                .stateRefresh (env.stateTxCnt s3.oracleCalls)], ?_⟩
              simp only [hc2]
              rw [initStateTxCnt_events, hs3, ht1]
              simp
        | nonceTooLow a n c =>
          rcases hc2 : cancelStrategy env idx s1 with ⟨rc, s3⟩
          have hs3 : s3.events = s1.events ++ [ExecEvent.cancelCall idx] := by
            have := cancelStrategy_events env idx s1
            rw [hc2] at this
            simpa using this
          cases rc <;>
            · refine ⟨t1 ++ [.cancelCall idx,
                .stateRefresh (env.stateTxCnt s3.oracleCalls)], ?_⟩
              simp only [hc2]
              rw [initStateTxCnt_events, hs3, ht1]
              simp
        | nonceTooHigh =>
          rcases hc2 : cancelStrategy env idx s1 with ⟨rc, s3⟩
          have hs3 : s3.events = s1.events ++ [ExecEvent.cancelCall idx] := by
            have := cancelStrategy_events env idx s1
            rw [hc2] at this
            simpa using this
          cases rc <;>
            · refine ⟨t1 ++ [.cancelCall idx,
                .stateRefresh (env.stateTxCnt s3.oracleCalls)], ?_⟩
              simp only [hc2]
              rw [initStateTxCnt_events, hs3, ht1]
              simp
        | bigTx =>
          rcases hc2 : cancelStrategy env idx s1 with ⟨rc, s3⟩
          have hs3 : s3.events = s1.events ++ [ExecEvent.cancelCall idx] := by
            have := cancelStrategy_events env idx s1
            rw [hc2] at this
            simpa using this
          cases rc <;>
            · refine ⟨t1 ++ [.cancelCall idx,
                .stateRefresh (env.stateTxCnt s3.oracleCalls)], ?_⟩
              simp only [hc2]
              rw [initStateTxCnt_events, hs3, ht1]
              simp
        | noMoreRetries =>
          rcases hc2 : cancelStrategy env idx s1 with ⟨rc, s3⟩
          have hs3 : s3.events = s1.events ++ [ExecEvent.cancelCall idx] := by
            have := cancelStrategy_events env idx s1
            rw [hc2] at this
            simpa using this
          cases rc <;>
            · refine ⟨t1 ++ [.cancelCall idx,
                .stateRefresh (env.stateTxCnt s3.oracleCalls)], ?_⟩
              simp only [hc2]
              rw [initStateTxCnt_events, hs3, ht1]
              simp
        | otherFail code =>
          rcases hc2 : cancelStrategy env idx s1 with ⟨rc, s3⟩
          have hs3 : s3.events = s1.events ++ [ExecEvent.cancelCall idx] := by
            have := cancelStrategy_events env idx s1
            rw [hc2] at this
            simpa using this
          cases rc <;>
            · refine ⟨t1 ++ [.cancelCall idx,
                .stateRefresh (env.stateTxCnt s3.oracleCalls)], ?_⟩
              simp only [hc2]
              rw [initStateTxCnt_events, hs3, ht1]
              simp
    · rw [if_neg hidx]
      exact ⟨[], by simp⟩

theorem cancelStrategy_ctx (env : ExecEnv) (idx : Nat) (s : ExecState) :
    (cancelStrategy env idx s).2.ctx = s.ctx := by
  unfold cancelStrategy
  split <;> rfl

theorem execRetryLoop_completed (env : ExecEnv) (idx fuel retry : Nat) (s : ExecState)
    (hc : s.ctx.completed_receipt = true) :
    (execRetryLoop env idx fuel retry s).2.ctx.completed_receipt = true ∧
    ∃ t, (execRetryLoop env idx fuel retry s).2.events = s.events ++ t ∧
      ExecEvent.noncePrecheck ∉ t := by
  induction fuel generalizing retry s with
  | zero => exact ⟨hc, [], by simp [execRetryLoop], by simp⟩
  | succ fuel ih =>
    unfold execRetryLoop
    cases hp : (env.strategy idx).prep retry with
    | error e =>
      simp only [hp]
      exact ⟨hc, [.prepCall idx retry], by simp, by simp⟩
    | ok hasChanges =>
      simp only [hp]
      cases hasChanges with
      | true =>
        simp only [eq_self_iff_true, true_or, if_true]
        rw [if_pos hc]
        cases hu : (env.strategy idx).updateAfterEmulate retry with
        | error e => exact ⟨hc, [.prepCall idx retry, .updateCall idx retry], by simp, by simp⟩
        | ok _ =>
          simp only [hu, eq_self_iff_true, if_true]
          obtain ⟨h1, t2, ht2, hn2⟩ := ih (retry + 1)
            { s with events := (s.events ++ [ExecEvent.prepCall idx retry])
                ++ [ExecEvent.updateCall idx retry] } hc
          refine ⟨h1, [.prepCall idx retry, .updateCall idx retry] ++ t2, ?_, ?_⟩
          · rw [ht2]
            simp
          · simp only [List.mem_append, List.mem_cons, List.not_mem_nil, or_false]
            rintro ((h | h) | h)
            · exact absurd h (by simp)
            · exact absurd h (by simp)
            · exact hn2 h
      | false =>
        by_cases hr : retry = 0
        · subst hr
          simp only [eq_self_iff_true, or_true, if_true, Bool.false_eq_true, false_or]
          rw [if_pos hc]
          cases hu : (env.strategy idx).updateAfterEmulate 0 with
          | error e => exact ⟨hc, [.prepCall idx 0, .updateCall idx 0], by simp, by simp⟩
          | ok _ =>
            simp only [hu, Bool.false_eq_true, if_false]
            refine ⟨?_, [.prepCall idx 0, .updateCall idx 0, .execCall idx 0], ?_, by simp⟩
            · split <;> simp [hc]
            · split <;> simp
        · simp only [Bool.false_eq_true, false_or, if_neg hr, if_false]
          refine ⟨?_, [.prepCall idx retry, .execCall idx retry], ?_, by simp⟩
          · split <;> simp [hc]
          · split <;> simp

theorem execStrategy_completed (env : ExecEnv) (idx : Nat) (s : ExecState)
    (hc : s.ctx.completed_receipt = true) :
    (execStrategy env idx s).2.ctx.completed_receipt = true ∧
    ∃ t, (execStrategy env idx s).2.events = s.events ++ t ∧
      ExecEvent.noncePrecheck ∉ t := by
  unfold execStrategy
  cases hci : (env.strategy idx).completeInitOk with
  | error e => exact ⟨hc, [], by simp, by simp⟩
  | ok _ =>
    have h := execRetryLoop_completed env idx
      (({ s with ctx := { s.ctx with strategy_idx := idx } } : ExecState).ctx.retry_on_fail) 0
      { s with ctx := { s.ctx with strategy_idx := idx } } (by simpa using hc)
    simpa using h

theorem attemptStrategy_completed (env : ExecEnv) (idx : Nat) (s : ExecState)
    (hc : s.ctx.completed_receipt = true) :
    (attemptStrategy env idx s).2.ctx.completed_receipt = true ∧
    ∃ t, (attemptStrategy env idx s).2.events = s.events ++ t ∧
      ExecEvent.noncePrecheck ∉ t := by
  unfold attemptStrategy
  cases hv : (env.strategy idx).validateOk with
  | error e => exact ⟨hc, [], by simp, by simp⟩
  | ok b =>
    cases b with
    | false => exact ⟨hc, [.validateCall idx false], by simp, by simp⟩
    | true =>
      obtain ⟨h1, t1, ht1, hn1⟩ := execStrategy_completed env idx
        { s with events := s.events ++ [ExecEvent.validateCall idx true] } (by simpa using hc)
      rcases hm : execStrategy env idx
        { s with events := s.events ++ [ExecEvent.validateCall idx true] } with ⟨r, s2⟩
      rw [hm] at h1 ht1
      simp only at h1 ht1
      refine ⟨?_, [.validateCall idx true] ++ t1, ?_, ?_⟩
      · cases r <;> simp [hm, h1]
      · cases r <;> simp [hm, ht1]
      · simp only [List.mem_append, List.mem_cons, List.not_mem_nil, or_false]
        rintro (h | h)
        · exact absurd h (by simp)
        · exact hn1 h

theorem ladderLoop_completed (env : ExecEnv) (fuel idx : Nat) (s : ExecState)
    (hc : s.ctx.completed_receipt = true) :
    (ladderLoop env fuel idx s).2.ctx.completed_receipt = true ∧
    ∃ t, (ladderLoop env fuel idx s).2.events = s.events ++ t ∧
      ExecEvent.noncePrecheck ∉ t := by
  induction fuel generalizing idx s with
  | zero => exact ⟨hc, [], by simp [ladderLoop], by simp⟩
  | succ fuel ih =>
    unfold ladderLoop
    by_cases hidx : idx < strategyListLen
    · rw [if_pos hidx]
      obtain ⟨h1, t1, ht1, hn1⟩ := attemptStrategy_completed env idx s hc
      rcases hm : attemptStrategy env idx s with ⟨r, s1⟩
      rw [hm] at h1 ht1
      simp only at h1 ht1
      have hrctx : (initStateTxCnt env s1).ctx.completed_receipt = true := by
        simp [initStateTxCnt, h1]
      have hrev : (initStateTxCnt env s1).events
          = s.events ++ (t1 ++ [ExecEvent.stateRefresh (env.stateTxCnt s1.oracleCalls)]) := by
        rw [initStateTxCnt_events, ht1]
        simp
      have hnem : ExecEvent.noncePrecheck
          ∉ t1 ++ [ExecEvent.stateRefresh (env.stateTxCnt s1.oracleCalls)] := by
        simp only [List.mem_append, List.mem_cons, List.not_mem_nil, or_false]
        rintro (h | h)
        · exact hn1 h
        · exact absurd h (by simp)
      have hcancel : ∀ rc s3, cancelStrategy env idx s1 = (rc, s3) →
          (initStateTxCnt env s3).ctx.completed_receipt = true ∧
          (initStateTxCnt env s3).events = s.events ++ (t1 ++ [ExecEvent.cancelCall idx,
            ExecEvent.stateRefresh (env.stateTxCnt s3.oracleCalls)]) ∧
          ExecEvent.noncePrecheck ∉ t1 ++ [ExecEvent.cancelCall idx,
            ExecEvent.stateRefresh (env.stateTxCnt s3.oracleCalls)] := by
        intro rc s3 hc2
        have hev3 : s3.events = s1.events ++ [ExecEvent.cancelCall idx] := by
          have h := cancelStrategy_events env idx s1
          rw [hc2] at h
          simpa using h
        have hctx3 : s3.ctx = s1.ctx := by
          have h := cancelStrategy_ctx env idx s1
          rw [hc2] at h
          simpa using h
        refine ⟨by simp [initStateTxCnt, hctx3, h1], ?_, ?_⟩
        · rw [initStateTxCnt_events, hev3, ht1]
          simp
        · simp only [List.mem_append, List.mem_cons, List.not_mem_nil, or_false]
          rintro (h | h | h)
          · exact hn1 h
          · exact absurd h (by simp)
          · exact absurd h (by simp)
      cases r with
      | ok o =>
        cases o with
        | some v => exact ⟨hrctx, _, hrev, hnem⟩
        | none =>
          obtain ⟨h2, t2, ht2, hn2⟩ := ih (idx + 1) (initStateTxCnt env s1) hrctx
          rw [hrev] at ht2
          refine ⟨h2, (t1 ++ [ExecEvent.stateRefresh (env.stateTxCnt s1.oracleCalls)]) ++ t2,
            ?_, ?_⟩
          · rw [ht2, List.append_assoc]
          · simp only [List.mem_append]
            rintro (h | h)
            · exact hnem (by simpa using h)
            · exact hn2 h
      | error e =>
        cases e with
        | reschedule => exact ⟨hrctx, _, hrev, hnem⟩
        | wrongStrategy =>
          simp only []
          rw [if_neg (by simp [h1])]
          rcases hc2 : cancelStrategy env idx s1 with ⟨rc, s3⟩
          obtain ⟨ha, hb, hn⟩ := hcancel rc s3 hc2
          cases rc with
          | error e2 => exact ⟨ha, _, hb, hn⟩
          | ok _ => exact ⟨ha, _, hb, hn⟩
        | nonceTooLow a n c =>
          rcases hc2 : cancelStrategy env idx s1 with ⟨rc, s3⟩
          simp only [hc2]
          obtain ⟨ha, hb, hn⟩ := hcancel rc s3 hc2
          cases rc with
          | error e2 => exact ⟨ha, _, hb, hn⟩
          | ok _ => exact ⟨ha, _, hb, hn⟩
        | nonceTooHigh =>
          rcases hc2 : cancelStrategy env idx s1 with ⟨rc, s3⟩
          simp only [hc2]
          obtain ⟨ha, hb, hn⟩ := hcancel rc s3 hc2
          cases rc with
          | error e2 => exact ⟨ha, _, hb, hn⟩
          | ok _ => exact ⟨ha, _, hb, hn⟩
        | bigTx =>
          rcases hc2 : cancelStrategy env idx s1 with ⟨rc, s3⟩
          simp only [hc2]
          obtain ⟨ha, hb, hn⟩ := hcancel rc s3 hc2
          cases rc with
          | error e2 => exact ⟨ha, _, hb, hn⟩
          | ok _ => exact ⟨ha, _, hb, hn⟩
        | noMoreRetries =>
          rcases hc2 : cancelStrategy env idx s1 with ⟨rc, s3⟩
          simp only [hc2]
          obtain ⟨ha, hb, hn⟩ := hcancel rc s3 hc2
          cases rc with
          | error e2 => exact ⟨ha, _, hb, hn⟩
          | ok _ => exact ⟨ha, _, hb, hn⟩
        | otherFail code =>
          rcases hc2 : cancelStrategy env idx s1 with ⟨rc, s3⟩
          simp only [hc2]
          obtain ⟨ha, hb, hn⟩ := hcancel rc s3 hc2
          cases rc with
          | error e2 => exact ⟨ha, _, hb, hn⟩
          | ok _ => exact ⟨ha, _, hb, hn⟩
    · rw [if_neg hidx]
      exact ⟨hc, [], by simp, by simp⟩

/-! ## C1: nonce precheck gating and classification -/

/-- C1: in a run of the strategy-ladder executor the nonce precheck (which
refreshes `state_tx_cnt` first) is performed iff `has_completed_receipt` is
false at entry; and the precheck passes exactly when the refreshed
`state_tx_cnt` equals the tx nonce, raises `NonceTooHigh` exactly when it is
below it, and `NonceTooLow` exactly when it is above it. -/
theorem nonce_precheck_gating (env : ExecEnv) (s : ExecState)
    (hev : s.events = []) :
    ((ExecEvent.noncePrecheck ∈ (executeLadder env s).2.events) ↔
      s.ctx.completed_receipt = false) ∧
    (∀ s2 : ExecState,
      (validateNonce env s2).2.ctx.state_tx_cnt = env.stateTxCnt s2.oracleCalls ∧
      ((validateNonce env s2).1 = .ok () ↔
        env.stateTxCnt s2.oracleCalls = s2.ctx.nonce) ∧
      ((validateNonce env s2).1 = .error .nonceTooHigh ↔
        env.stateTxCnt s2.oracleCalls < s2.ctx.nonce) ∧
      ((validateNonce env s2).1 = .error (.nonceTooLow s2.ctx.addr s2.ctx.nonce
          (env.stateTxCnt s2.oracleCalls)) ↔
        s2.ctx.nonce < env.stateTxCnt s2.oracleCalls)) := by
  constructor
  · constructor
    · intro hmem
      by_contra hfc
      have hct : s.ctx.completed_receipt = true := by
        cases h : s.ctx.completed_receipt
        · exact absurd h hfc
        · rfl
      have hstep : (if s.ctx.completed_receipt = false then validateNonce env s
          else ((.ok () : Except NeonError Unit), s)) = ((.ok () : Except NeonError Unit), s) := by
        rw [if_neg]
        simp [hct]
      obtain ⟨h2, t, ht, hn⟩ := ladderLoop_completed env
        (strategyListLen - s.ctx.strategy_idx) s.ctx.strategy_idx s hct
      have hres : (executeLadder env s).2.events = s.events ++ t := by
        unfold executeLadder
        rw [hstep]
        exact ht
      rw [hres, hev] at hmem
      simp only [List.nil_append] at hmem
      exact hn hmem
    · intro hcf
      have hstep : (if s.ctx.completed_receipt = false then validateNonce env s
          else ((.ok () : Except NeonError Unit), s)) = validateNonce env s := if_pos hcf
      have hve := validateNonce_events env s
      rcases hv : validateNonce env s with ⟨r, s1⟩
      rw [hv] at hve
      simp only at hve
      have hmem1 : ExecEvent.noncePrecheck ∈ s1.events := by
        rw [hve]
        simp
      unfold executeLadder
      rw [hstep, hv]
      cases r with
      | error e => simpa using hmem1
      | ok _ =>
        obtain ⟨t2, ht2⟩ := ladderLoop_events env
          (strategyListLen - s1.ctx.strategy_idx) s1.ctx.strategy_idx s1
        simp only []
        rw [ht2]
        simp [hmem1]
  · intro s2
    simp only [validateNonce, initStateTxCnt]
    split_ifs with h1 h2 <;> refine ⟨rfl, ?_, ?_, ?_⟩ <;> simp_all <;> omega

/-- C1 witness: the gating theorem applied at a concrete fresh state. -/
theorem nonce_precheck_gating_witness :
    (ExecEvent.noncePrecheck ∈ (executeLadder envAllSkip statePrecheck).2.events) ↔
      statePrecheck.ctx.completed_receipt = false :=
  (nonce_precheck_gating envAllSkip statePrecheck rfl).1

/-! ## C2: WrongStrategy handling in the ladder -/

/-- C2 counterexample: a strategy raises `WrongStrategy` while
`has_completed_receipt` is true; `cancel()` is invoked, but because the
cancel itself raises `Reschedule`, `_cancel` re-raises it and the ladder's
caller sees `Reschedule` — the `WrongStrategy` failure does *not* propagate,
contradicting the claim as stated. -/
theorem wrong_strategy_not_propagated_counterexample :
    (envWrongCancel.strategy 0).prep 0 = .error .wrongStrategy ∧
    stateCompleted.ctx.completed_receipt = true ∧
    ExecEvent.cancelCall 0 ∈ (executeLadder envWrongCancel stateCompleted).2.events ∧
    (executeLadder envWrongCancel stateCompleted).1 = .error .reschedule ∧
    (executeLadder envWrongCancel stateCompleted).1 ≠ .error .wrongStrategy := by
  refine ⟨rfl, rfl, by decide, rfl, ?_⟩
  have h2 : (executeLadder envWrongCancel stateCompleted).1 = .error .reschedule := rfl
  rw [h2]
  simp

/-- C2 (amended): when the attempt at ladder index `idx` raises
`WrongStrategy`: if `has_completed_receipt` is false, the ladder advances to
`idx + 1` on the same transaction, the attempt itself never invoked
`cancel()`, and the only event added before entering `idx + 1` is the
`finally` nonce refresh; if `has_completed_receipt` is true, `cancel()` is
invoked, and the `WrongStrategy` failure propagates unless the cancel itself
raises `Reschedule`, in which case that `Reschedule` propagates instead. -/
theorem wrong_strategy_dispatch (env : ExecEnv) (fuel idx : Nat) (s s1 : ExecState)
    (hidx : idx < strategyListLen)
    (hatt : attemptStrategy env idx s = (.error .wrongStrategy, s1)) :
    (s1.ctx.completed_receipt = false →
      ladderLoop env (fuel + 1) idx s
        = ladderLoop env fuel (idx + 1) (initStateTxCnt env s1) ∧
      (∀ i, ExecEvent.cancelCall i ∈ s1.events → ExecEvent.cancelCall i ∈ s.events) ∧
      (initStateTxCnt env s1).events
        = s1.events ++ [.stateRefresh (env.stateTxCnt s1.oracleCalls)]) ∧
    (s1.ctx.completed_receipt = true →
      ExecEvent.cancelCall idx ∈ (ladderLoop env (fuel + 1) idx s).2.events ∧
      ((env.strategy idx).cancel = .error .reschedule →
        (ladderLoop env (fuel + 1) idx s).1 = .error .reschedule) ∧
      ((env.strategy idx).cancel ≠ .error .reschedule →
        (ladderLoop env (fuel + 1) idx s).1 = .error .wrongStrategy)) := by
  constructor
  · intro hcompl
    refine ⟨?_, ?_, initStateTxCnt_events env s1⟩
    · simp only [ladderLoop, if_pos hidx, hatt]
      rw [if_pos hcompl]
    · intro i hmem
      obtain ⟨t, ht, hq⟩ := attemptStrategy_events env idx s
      rw [hatt] at ht
      simp only at ht
      rw [ht] at hmem
      rcases List.mem_append.mp hmem with h | h
      · exact h
      · rcases hq _ h with ⟨b, hx⟩ | ⟨k, hx⟩ | ⟨k, hx⟩ | ⟨k, hx, _⟩ | hx | hx | ⟨v, hx⟩ <;>
          exact absurd hx (by simp)
  · intro hcompl
    have hred : ladderLoop env (fuel + 1) idx s
        = (match cancelStrategy env idx s1 with
           | (.error e2, s3) => (.error e2, initStateTxCnt env s3)
           | (.ok _, s3) => (.error .wrongStrategy, initStateTxCnt env s3)) := by
      simp only [ladderLoop, if_pos hidx, hatt]
      rw [if_neg (by simp [hcompl])]
    rcases hc2 : cancelStrategy env idx s1 with ⟨rc, s3⟩
    have hev3 : s3.events = s1.events ++ [ExecEvent.cancelCall idx] := by
      have h := cancelStrategy_events env idx s1
      rw [hc2] at h
      simpa using h
    have hcmem : ExecEvent.cancelCall idx ∈ (ladderLoop env (fuel + 1) idx s).2.events := by
      rw [hred, hc2]
      cases rc <;>
        · simp only []
          rw [initStateTxCnt_events, hev3]
          simp
    refine ⟨hcmem, ?_, ?_⟩
    · intro hcanr
      have hcs : cancelStrategy env idx s1
          = (.error .reschedule,
             { s1 with events := s1.events ++ [ExecEvent.cancelCall idx] }) := by
        unfold cancelStrategy
        rw [hcanr]
      rw [hred, hcs]
    · intro hcann
      have hcs : cancelStrategy env idx s1
          = ((.ok () : Except NeonError Unit),
             { s1 with events := s1.events ++ [ExecEvent.cancelCall idx] }) := by
        unfold cancelStrategy
        cases hcv : (env.strategy idx).cancel with
        | ok u => cases u; rfl
        | error e =>
          cases e with
          | reschedule => exact absurd hcv hcann
          | nonceTooLow a n c => rfl
          | nonceTooHigh => rfl
          | wrongStrategy => rfl
          | bigTx => rfl
          | noMoreRetries => rfl
          | otherFail code => rfl
      rw [hred, hcs]

/-- C2 witness (for the amended theorem): at the concrete
`WrongStrategy`-raising, `Reschedule`-cancelling strategy with a completed
receipt, the ladder invokes cancel and propagates `Reschedule`. -/
theorem wrong_strategy_dispatch_witness :
    ExecEvent.cancelCall 0 ∈ (ladderLoop envWrongCancel 10 0 stateCompleted).2.events ∧
    (ladderLoop envWrongCancel 10 0 stateCompleted).1 = .error .reschedule := by
  have h := (wrong_strategy_dispatch envWrongCancel 9 0 stateCompleted
    (attemptStrategy envWrongCancel 0 stateCompleted).2 (by decide) (by rfl)).2 (by rfl)
  exact ⟨h.1, h.2.1 (by rfl)⟩

/-! ## C6: prep thrashing exhausts the retries -/

theorem execRetryLoop_thrash (env : ExecEnv) (idx : Nat) (N : Nat)
    (hupd : ∀ k, (env.strategy idx).updateAfterEmulate k = .ok ())
    (hemu : ∀ n, ∃ v, env.emulated n = .ok v)
    (horacle : ∀ n, env.stateTxCnt n = N) :
    ∀ (fuel retry : Nat) (s : ExecState), s.ctx.nonce = N →
      (∀ k, retry ≤ k → k < retry + fuel → (env.strategy idx).prep k = .ok true) →
      (execRetryLoop env idx fuel retry s).1 = .error .noMoreRetries ∧
      (∀ i k, ExecEvent.execCall i k ∈ (execRetryLoop env idx fuel retry s).2.events →
        ExecEvent.execCall i k ∈ s.events) := by
  intro fuel
  induction fuel with
  | zero =>
    intro retry s hN hprep
    exact ⟨by simp [execRetryLoop], fun i k h => by simpa [execRetryLoop] using h⟩
  | succ fuel ih =>
    intro retry s hN hprep
    have hp : (env.strategy idx).prep retry = .ok true := hprep retry le_rfl (by omega)
    unfold execRetryLoop
    simp only [hp, eq_self_iff_true, true_or, if_true]
    by_cases hcompl : s.ctx.completed_receipt = true
    · rw [if_pos hcompl]
      simp only [hupd retry, eq_self_iff_true, if_true]
      obtain ⟨h1, h2⟩ := ih (retry + 1)
        { s with events := (s.events ++ [ExecEvent.prepCall idx retry])
            ++ [ExecEvent.updateCall idx retry] }
        (by simpa using hN)
        (fun k hk1 hk2 => hprep k (by omega) (by omega))
      refine ⟨h1, fun i k h => ?_⟩
      have := h2 i k h
      simpa using this
    · rw [if_neg hcompl]
      by_cases hst : s.ctx.is_stuck = true
      · have hm : emulateNeonTx env
            { s with events := s.events ++ [ExecEvent.prepCall idx retry] }
            = ((.ok () : Except NeonError Unit),
               { s with events := s.events ++ [ExecEvent.prepCall idx retry] }) := by
          unfold emulateNeonTx
          rw [if_pos (by simpa using hst)]
        rw [hm]
        simp only [hupd retry, eq_self_iff_true, if_true]
        obtain ⟨h1, h2⟩ := ih (retry + 1)
          { s with events := (s.events ++ [ExecEvent.prepCall idx retry])
              ++ [ExecEvent.updateCall idx retry] }
          (by simpa using hN)
          (fun k hk1 hk2 => hprep k (by omega) (by omega))
        refine ⟨h1, fun i k h => ?_⟩
        have := h2 i k h
        simpa using this
      · obtain ⟨v, hv⟩ := hemu s.emuCalls
        have hm : emulateNeonTx env
            { s with events := s.events ++ [ExecEvent.prepCall idx retry] }
            = ((.ok () : Except NeonError Unit),
               { s with
                   ctx := { s.ctx with
                              emulated_result := some v
                              state_tx_cnt := env.stateTxCnt s.oracleCalls }
                   oracleCalls := s.oracleCalls + 1
                   emuCalls := s.emuCalls + 1
                   events := (s.events ++ [ExecEvent.prepCall idx retry])
                     ++ [ExecEvent.emulateCall, ExecEvent.noncePrecheck,
                         ExecEvent.stateRefresh (env.stateTxCnt s.oracleCalls)] }) := by
          unfold emulateNeonTx
          rw [if_neg (by simpa using hst)]
          simp only [hv]
          unfold validateNonce initStateTxCnt
          rw [if_pos (by simp [horacle, hN])]
          simp
        rw [hm]
        simp only [hupd retry, eq_self_iff_true, if_true]
        obtain ⟨h1, h2⟩ := ih (retry + 1)
          { s with
              ctx := { s.ctx with
                         emulated_result := some v
                         state_tx_cnt := env.stateTxCnt s.oracleCalls }
              oracleCalls := s.oracleCalls + 1
              emuCalls := s.emuCalls + 1
              events := ((s.events ++ [ExecEvent.prepCall idx retry])
                ++ [ExecEvent.emulateCall, ExecEvent.noncePrecheck,
                    ExecEvent.stateRefresh (env.stateTxCnt s.oracleCalls)])
                ++ [ExecEvent.updateCall idx retry] }
          (by simpa using hN)
          (fun k hk1 hk2 => hprep k (by omega) (by omega))
        refine ⟨h1, fun i k h => ?_⟩
        have := h2 i k h
        simpa using this

/-- C6: if `prep_before_emulate()` reports changed state on every one of the
`retry_on_fail` iterations (and emulation, update and the nonce precheck all
pass), `_execute` never calls `execute()` and fails with `NoMoreRetries`;
and in any run whatsoever, `execute()` is reached only on an iteration whose
`prep_before_emulate()` returned false. -/
theorem prep_thrash_no_more_retries (env : ExecEnv) (idx : Nat) (s : ExecState)
    (hprep : ∀ k, k < s.ctx.retry_on_fail → (env.strategy idx).prep k = .ok true)
    (hupd : ∀ k, (env.strategy idx).updateAfterEmulate k = .ok ())
    (hinit : (env.strategy idx).completeInitOk = .ok ())
    (hemu : ∀ n, ∃ v, env.emulated n = .ok v)
    (horacle : ∀ n, env.stateTxCnt n = s.ctx.nonce) :
    ((execStrategy env idx s).1 = .error .noMoreRetries ∧
      (∀ i k, ExecEvent.execCall i k ∈ (execStrategy env idx s).2.events →
        ExecEvent.execCall i k ∈ s.events)) ∧
    (∀ (fuel retry : Nat) (s2 : ExecState) (i k : Nat),
      ExecEvent.execCall i k ∈ (execRetryLoop env idx fuel retry s2).2.events →
      ExecEvent.execCall i k ∈ s2.events ∨
        (i = idx ∧ (env.strategy idx).prep k = .ok false)) := by
  constructor
  · have h := execRetryLoop_thrash env idx s.ctx.nonce hupd hemu horacle
      s.ctx.retry_on_fail 0 { s with ctx := { s.ctx with strategy_idx := idx } }
      (by simp) (fun k hk1 hk2 => hprep k (by omega))
    constructor
    · unfold execStrategy
      simp only [hinit]
      exact h.1
    · intro i k hmem
      unfold execStrategy at hmem
      simp only [hinit] at hmem
      have := h.2 i k hmem
      simpa using this
  · intro fuel retry s2 i k hmem
    obtain ⟨t, ht, hq⟩ := execRetryLoop_events env idx fuel retry s2
    rw [ht] at hmem
    rcases List.mem_append.mp hmem with h | h
    · exact Or.inl h
    · rcases hq _ h with ⟨k2, hx⟩ | ⟨k2, hx⟩ | ⟨k2, hx, hpf⟩ | hx | hx | ⟨v, hx⟩
      · exact absurd hx (by simp)
      · exact absurd hx (by simp)
      · have hik : i = idx ∧ k = k2 := by
          constructor <;> · injection hx
        exact Or.inr ⟨hik.1, hik.2 ▸ hpf⟩
      · exact absurd hx (by simp)
      · exact absurd hx (by simp)
      · exact absurd hx (by simp)

/-- C6 witness: at a concrete strategy whose preparation always reports
changes, `_execute` fails with `NoMoreRetries` and never reaches
`execute()`. -/
theorem prep_thrash_no_more_retries_witness :
    (execStrategy envThrash 0 statePrecheck).1 = .error .noMoreRetries :=
  (prep_thrash_no_more_retries envThrash 0 statePrecheck
    (fun _ _ => rfl) (fun _ => rfl) rfl (fun _ => ⟨0, rfl⟩) (fun _ => rfl)).1.1

end Spec2Proof
